import Mathlib

/-!
# Verification of the agent-datakit sandbox core

A shallow embedding of the syscall-interception engine of the
agent-datakit repository: the per-process virtual file-descriptor table
(`src/agentfs/src/vfs/fdtable.rs`), the mount table with longest-prefix
resolution (`src/agentfs/src/vfs/mount.rs`, `src/sandbox/src/vfs/bind.rs`),
the syscall handlers (`src/agentos/src/syscall/file.rs`,
`src/sandbox/src/syscall/process.rs`), and the SQLite-backed POSIX
filesystem backend (`src/agentfs/src/vfs/sqlite.rs`,
`src/sdk/rust/src/filesystem.rs`).

Machine integers (`i32`, `i64`) are modelled as `Int`; byte buffers as
`List Nat`; the SQL tables as in-memory association lists, with SQL
`WHERE` clauses as filters and `ORDER BY` as a sort.  `HashMap` is an
association list with unique keys, `BinaryHeap<Reverse<i32>>` is a list
whose pop returns the minimum.  Fallible Rust code returns
`Option`/`Except`.
-/

namespace AgentFs

/-- `VfsError` from `src/agentfs/src/vfs/mod.rs`.  The `IoError` payload
(a `std::io::Error`) is modelled by its message string. -/
inductive VfsError where
  | NotFound
  | PermissionDenied
  | InvalidInput (msg : String)
  | IoError (msg : String)
  | Other (msg : String)
deriving DecidableEq, Repr

/-- Model of a `BoxedFileOps` trait object as far as the fd-table and the
handlers in this development inspect it: `rawFd` is the result of
`as_raw_fd()` (`Some` kernel fd for passthrough files, `None` for
virtual files), `closeErr` the error its `close()` would report, if
any (`none` = `Ok(())`). -/
structure FileOpsM where
  rawFd : Option Int
  closeErr : Option VfsError
deriving DecidableEq, Repr

/-- `FdEntry` from `src/agentfs/src/vfs/fdtable.rs` lines 13-18:
a file-operations object plus the fd flags. -/
structure FdEntry where
  file_ops : FileOpsM
  flags : Int
deriving DecidableEq, Repr

/-- `FdEntry::kernel_fd` (fdtable.rs lines 22-24): delegates to
`file_ops.as_raw_fd()`. -/
def FdEntry.kernel_fd (e : FdEntry) : Option Int :=
  e.file_ops.rawFd

/-- `FdTableInner` from fdtable.rs lines 28-35. `entries` is the
`HashMap<i32, FdEntry>` as an association list with unique keys;
`free_fds` is the `BinaryHeap<Reverse<i32>>` as a list whose pop
extracts the minimum. -/
structure FdTableState where
  entries : List (Int × FdEntry)
  next_vfd : Int
  free_fds : List Int
deriving DecidableEq, Repr

/-- `HashMap::get`. -/
def lookupEntry (k : Int) (l : List (Int × FdEntry)) : Option FdEntry :=
  (l.find? (fun p => p.1 = k)).map (fun p => p.2)

/-- `HashMap::insert`: replaces any entry at the key. -/
def insertEntry (k : Int) (v : FdEntry) (l : List (Int × FdEntry)) :
    List (Int × FdEntry) :=
  (k, v) :: l.filter (fun p => p.1 ≠ k)

/-- `HashMap::remove` (the resulting map). -/
def removeEntry (k : Int) (l : List (Int × FdEntry)) : List (Int × FdEntry) :=
  l.filter (fun p => p.1 ≠ k)

/-- Keys of the entries map. -/
def keysOf (l : List (Int × FdEntry)) : List Int :=
  l.map (fun p => p.1)

/-- Minimum of a list of integers, if nonempty. -/
def listMin? (l : List Int) : Option Int :=
  l.min?

/-- `BinaryHeap<Reverse<i32>>::pop`: extract the minimum element. -/
def popMin (l : List Int) : Option (Int × List Int) :=
  match listMin? l with
  | none => none
  | some m => some (m, l.erase m)

/-- `i32::MAX`. -/
def i32Max : Int := 2147483647

/-- Two's-complement reduction of an unbounded integer into the `i32`
range `[-2^31, 2^31)`: the release-build semantics of an overflowing
`i32` addition (a debug build would panic instead). -/
def wrap32 (x : Int) : Int := (x + 2147483648) % 4294967296 - 2147483648

/-- `FIRST_USER_FD` (fdtable.rs line 9). -/
def FIRST_USER_FD : Int := 3

/-- `(lo..i32::MAX).find(|fd| !entries.contains_key(fd))`, ignoring the
upper bound: the least integer `≥ lo` that is not in `keys`.  The caller
compares the result against `i32Max` to recover the bounded search. -/
def firstFree (keys : List Int) (lo : Int) : Int :=
  if h : lo ∈ keys then firstFree (keys.erase lo) (lo + 1) else lo
termination_by keys.length
decreasing_by
  simp only [List.length_erase_of_mem h]
  exact Nat.sub_lt (List.length_pos.mpr (List.ne_nil_of_mem h)) Nat.one_pos

/-- `FdTable::new` (fdtable.rs lines 52-87): standard fds 0,1,2 as
passthrough entries onto kernel fds 0,1,2; `next_vfd = 3`; empty free
heap. -/
def FdTableState.new : FdTableState :=
  { entries :=
      [ (0, ⟨⟨some 0, none⟩, 0⟩)
      , (1, ⟨⟨some 1, none⟩, 0⟩)
      , (2, ⟨⟨some 2, none⟩, 0⟩) ]
    next_vfd := FIRST_USER_FD
    free_fds := [] }

/-- `FdTable::allocate` (fdtable.rs lines 111-137): pop the minimum freed
fd if any, else take `next_vfd` (with the `i32::MAX` gap-search edge
case); insert the entry.  `none` models the `expect` panic on fd
exhaustion. -/
def FdTableState.allocate (s : FdTableState) (file_ops : FileOpsM)
    (flags : Int) : Option (Int × FdTableState) :=
  match popMin s.free_fds with
  | some (m, rest) =>
      some (m, { entries := insertEntry m ⟨file_ops, flags⟩ s.entries
                 next_vfd := s.next_vfd
                 free_fds := rest })
  | none =>
      let vfd := s.next_vfd
      if vfd = i32Max then
        let g := firstFree (keysOf s.entries) FIRST_USER_FD
        if g < i32Max then
          some (g, { entries := insertEntry g ⟨file_ops, flags⟩ s.entries
                     next_vfd := s.next_vfd
                     free_fds := s.free_fds })
        else none
      else
        some (vfd, { entries := insertEntry vfd ⟨file_ops, flags⟩ s.entries
                     next_vfd := vfd + 1
                     free_fds := s.free_fds })

/-- `FdTable::allocate_min` (fdtable.rs lines 142-168): lowest unused fd
`≥ min_vfd`; bump `next_vfd` past it if needed; purge it from the free
heap; insert.  `none` models the `expect` panic when the search range is
exhausted.  Unlike `allocate_at`, the bump `vfd + 1` here cannot
overflow: the searched vfd is drawn from `min_vfd..i32::MAX`, so
`vfd < i32::MAX` whenever the branch is taken. -/
def FdTableState.allocate_min (s : FdTableState) (min_vfd : Int)
    (file_ops : FileOpsM) (flags : Int) : Option (Int × FdTableState) :=
  let vfd := firstFree (keysOf s.entries) min_vfd
  if vfd < i32Max then
    some (vfd, { entries := insertEntry vfd ⟨file_ops, flags⟩ s.entries
                 next_vfd := if s.next_vfd ≤ vfd then vfd + 1 else s.next_vfd
                 free_fds := s.free_fds.filter (fun fd => fd ≠ vfd) })
  else none

/-- `FdTable::allocate_at` (fdtable.rs lines 174-196): install at a given
vfd, purging it from the free heap and bumping `next_vfd` if needed;
returns the prior entry at that vfd, if any.  The bump `vfd + 1`
(fdtable.rs line 191) is an unguarded `i32` addition: at
`vfd = i32::MAX` — reachable, since `dup2` passes the guest-chosen
`newfd` straight through (file.rs lines 287-336) — it overflows,
wrapping `next_vfd` to `i32::MIN` under release-build semantics
(`wrap32`; a debug build would panic here).  For `vfd < i32::MAX` the
`wrap32` is the identity. -/
def FdTableState.allocate_at (s : FdTableState) (vfd : Int)
    (file_ops : FileOpsM) (flags : Int) : Option FdEntry × FdTableState :=
  ( lookupEntry vfd s.entries
  , { entries := insertEntry vfd ⟨file_ops, flags⟩ s.entries
      next_vfd := if s.next_vfd ≤ vfd then wrap32 (vfd + 1) else s.next_vfd
      free_fds := s.free_fds.filter (fun fd => fd ≠ vfd) } )

/-- `FdTable::translate` (fdtable.rs lines 202-208). -/
def FdTableState.translate (s : FdTableState) (vfd : Int) : Option Int :=
  (lookupEntry vfd s.entries).bind FdEntry.kernel_fd

/-- `FdTable::get` (fdtable.rs lines 211-217). -/
def FdTableState.get (s : FdTableState) (vfd : Int) : Option FdEntry :=
  lookupEntry vfd s.entries

/-- `FdTable::deallocate` (fdtable.rs lines 220-234): remove the entry;
if the vfd is a user fd (`≥ 3`) push it onto the free heap.  When the
vfd is absent the table is unchanged and `none` is returned. -/
def FdTableState.deallocate (s : FdTableState) (vfd : Int) :
    Option FdEntry × FdTableState :=
  match lookupEntry vfd s.entries with
  | none => (none, s)
  | some e =>
      ( some e
      , { entries := removeEntry vfd s.entries
          next_vfd := s.next_vfd
          free_fds := if FIRST_USER_FD ≤ vfd then vfd :: s.free_fds
                      else s.free_fds } )

/-- `FdTable::duplicate` (fdtable.rs lines 237-241): clone the entry at
`old_vfd` (sharing the file-ops object) into a freshly allocated vfd. -/
def FdTableState.duplicate (s : FdTableState) (old_vfd : Int) :
    Option (Int × FdTableState) :=
  match s.get old_vfd with
  | none => none
  | some e => s.allocate e.file_ops e.flags

/-- `FdTable::duplicate_at` (fdtable.rs lines 246-249). -/
def FdTableState.duplicate_at (s : FdTableState) (old_vfd new_vfd : Int) :
    Option (Option FdEntry × FdTableState) :=
  match s.get old_vfd with
  | none => none
  | some e => some (s.allocate_at new_vfd e.file_ops e.flags)

/-! ## Reachable fd-table states

One constructor per mutating operation of `FdTable`
(fdtable.rs lines 111-249); operation arguments are arbitrary. -/

/-- States reachable from `FdTable::new` by any interleaving of
`allocate`, `allocate_min`, `allocate_at`, `deallocate`, `duplicate`
and `duplicate_at`. -/
inductive Reachable : FdTableState → Prop where
  | init : Reachable FdTableState.new
  | alloc {s v s' fo fl} : Reachable s →
      s.allocate fo fl = some (v, s') → Reachable s'
  | allocMin {s v s' m fo fl} : Reachable s →
      s.allocate_min m fo fl = some (v, s') → Reachable s'
  | allocAt {s r s' v fo fl} : Reachable s →
      s.allocate_at v fo fl = (r, s') → Reachable s'
  | dealloc {s r s' v} : Reachable s →
      s.deallocate v = (r, s') → Reachable s'
  | dup {s v s' old} : Reachable s →
      s.duplicate old = some (v, s') → Reachable s'
  | dupAt {s r s' old new} : Reachable s →
      s.duplicate_at old new = some (r, s') → Reachable s'

/-- States reachable from `FdTable::new` using only `allocate`,
`deallocate` and `duplicate` (no `allocate_min`/`allocate_at`/
`duplicate_at`). -/
inductive ReachableAD : FdTableState → Prop where
  | init : ReachableAD FdTableState.new
  | alloc {s v s' fo fl} : ReachableAD s →
      s.allocate fo fl = some (v, s') → ReachableAD s'
  | dealloc {s r s' v} : ReachableAD s →
      s.deallocate v = (r, s') → ReachableAD s'
  | dup {s v s' old} : ReachableAD s →
      s.duplicate old = some (v, s') → ReachableAD s'

/-- The fd-table representation invariant of histories that never wrap
`next_vfd` (in particular of all `allocate`/`deallocate`/`duplicate`
interleavings): entry keys are unique, the free heap holds only user
fds (`≥ 3`) that are not allocated, both entry keys and free fds lie
below `next_vfd`, the free heap has no duplicates, and `next_vfd`
never drops below 3. -/
def FdInv (s : FdTableState) : Prop :=
  (keysOf s.entries).Nodup ∧
  (∀ fd ∈ s.free_fds, FIRST_USER_FD ≤ fd) ∧
  (∀ fd ∈ s.free_fds, fd ∉ keysOf s.entries) ∧
  (∀ fd ∈ s.free_fds, fd < s.next_vfd) ∧
  (∀ fd ∈ keysOf s.entries, fd < s.next_vfd) ∧
  s.free_fds.Nodup ∧
  FIRST_USER_FD ≤ s.next_vfd

/-- The part of the fd-table invariant that survives every
interleaving, including histories where a `dup2`-driven `allocate_at`
at `i32::MAX` wraps `next_vfd` to `i32::MIN`: entry keys are unique,
and the free heap holds only user fds (`≥ 3`) that are not allocated,
without duplicates.  (The `next_vfd` bounds of `FdInv` do not survive
the wrap.) -/
def FdInvCore (s : FdTableState) : Prop :=
  (keysOf s.entries).Nodup ∧
  (∀ fd ∈ s.free_fds, FIRST_USER_FD ≤ fd) ∧
  (∀ fd ∈ s.free_fds, fd ∉ keysOf s.entries) ∧
  s.free_fds.Nodup

/-- The additional invariant of `allocate`/`deallocate`/`duplicate`-only
histories: every user fd below `next_vfd` is either allocated or on the
free heap (so `allocate` really returns the smallest unallocated
fd). -/
def FdInvAD (s : FdTableState) : Prop :=
  FdInv s ∧
  ∀ fd, FIRST_USER_FD ≤ fd → fd < s.next_vfd →
    (fd ∈ keysOf s.entries ∨ fd ∈ s.free_fds)

/-! ## Errno mapping at handler boundaries (`src/agentos/src/syscall/file.rs`) -/

/-- `-libc::ENOENT as i64` on Linux. -/
def ENOENT : Int := 2

/-- `-libc::EACCES as i64` on Linux. -/
def EACCES : Int := 13

/-- `libc::EIO` on Linux (named with a suffix to keep the
identifier distinct from the errno macro). -/
def EIO_errno : Int := 5

/-- The errno mapping in the virtual branch of `handle_openat`
(file.rs lines 48-56). -/
def openatVirtualErrno (e : VfsError) : Int :=
  match e with
  | VfsError.NotFound => -ENOENT
  | VfsError.PermissionDenied => -EACCES
  | _ => -EIO_errno

/-- The errno mapping in the virtual branch of `handle_read`
(file.rs lines 143-151). -/
def readVirtualErrno (e : VfsError) : Int :=
  match e with
  | VfsError.NotFound => -ENOENT
  | VfsError.PermissionDenied => -EACCES
  | _ => -EIO_errno

/-- The errno mapping in the virtual branch of `handle_write`
(file.rs lines 200-208). -/
def writeVirtualErrno (e : VfsError) : Int :=
  match e with
  | VfsError.NotFound => -ENOENT
  | VfsError.PermissionDenied => -EACCES
  | _ => -EIO_errno

/-- The virtual branch of `handle_openat` (file.rs lines 40-57): on a
successful VFS open, allocate a virtual fd for the file object and
return it; on a VFS error return the mapped negative errno, leaving the
table unchanged.  The outer `Option` is `none` on fd exhaustion. -/
def handle_openat_virtual (s : FdTableState)
    (openRes : Except VfsError FileOpsM) (flags : Int) :
    Option (Int × FdTableState) :=
  match openRes with
  | Except.ok file_ops =>
      match s.allocate file_ops flags with
      | some (vfd, s') => some (vfd, s')
      | none => none
  | Except.error e => some (openatVirtualErrno e, s)

/-- The virtual branch of `handle_read` (file.rs lines 125-152), with
the file object's read outcome supplied as an oracle: on success the
byte count is returned, on error the mapped negative errno. -/
def handle_read_virtual (readRes : Except VfsError Nat) : Int :=
  match readRes with
  | Except.ok n => (n : Int)
  | Except.error e => readVirtualErrno e

/-- The virtual branch of `handle_write` (file.rs lines 183-209), with
the file object's write outcome supplied as an oracle. -/
def handle_write_virtual (writeRes : Except VfsError Nat) : Int :=
  match writeRes with
  | Except.ok n => (n : Int)
  | Except.error e => writeVirtualErrno e

/-- The spec's errno mapping, stated from §7 of the specification:
"NotFound → ENOENT, PermissionDenied → EACCES, any other → EIO"
(as a negative guest return value). -/
def specErrnoMapping (e : VfsError) : Int :=
  match e with
  | VfsError.NotFound => -ENOENT
  | VfsError.PermissionDenied => -EACCES
  | VfsError.InvalidInput _ => -EIO_errno
  | VfsError.IoError _ => -EIO_errno
  | VfsError.Other _ => -EIO_errno

/-! ## `handle_close` and `handle_dup` (`src/agentos/src/syscall/file.rs`) -/

/-- `handle_close` (file.rs lines 221-244).  `kernelCloseRet` is the
return value of the injected kernel `close` (used only for passthrough
entries).  The result carries the guest return value, the table after,
and the list of file objects whose `close()` was invoked in-process;
`none` means the fd was absent and the original syscall is let through. -/
def handle_close (s : FdTableState) (vfd : Int) (kernelCloseRet : Int) :
    Option (Int × FdTableState × List FileOpsM) :=
  match s.deallocate vfd with
  | (some entry, s') =>
      match entry.kernel_fd with
      | some _ => some (kernelCloseRet, s', [])
      | none => some (0, s', [entry.file_ops])
  | (none, _) => none

/-- `handle_dup` (file.rs lines 249-276).  `kernelDupRet` is the return
value of the injected kernel `dup` (consulted only when the old vfd is
passthrough).  On kernel failure the speculatively allocated vfd is
deallocated and the kernel error returned. -/
def handle_dup (s : FdTableState) (old_vfd : Int) (kernelDupRet : Int) :
    Option (Int × FdTableState) :=
  match s.duplicate old_vfd with
  | some (new_vfd, s₁) =>
      match s₁.translate old_vfd with
      | some _ =>
          if kernelDupRet < 0 then
            some (kernelDupRet, (s₁.deallocate new_vfd).2)
          else some (new_vfd, s₁)
      | none => some (new_vfd, s₁)
  | none => none

end AgentFs

namespace MountModel

/-!
## Mount table (`src/agentfs/src/vfs/mount.rs`) and path translation
(`src/sandbox/src/vfs/bind.rs`, `src/agentfs/src/vfs/sqlite.rs`)

Guest paths and mount points are absolute; a path is modelled by its
list of components (nonempty names without separators).  Rust's
`Path::components()` on such a path yields the root component followed
by the name components, so its `count()` is the component-list length
plus one.  Both `BindVfs::translate_path` (bind.rs lines 45-75) and
`SqliteVfs::translate_path` (sqlite.rs lines 740-759) accept a path iff
it equals the mount's sandbox path or extends it at a component
boundary (`path == root || path.starts_with(root ++ "/")`), which on
component lists is exactly the list-prefix test — in particular
`/agentfoo` does not extend `/agent` at a component boundary.
-/

/-- A mount point (`MountPoint`, mount.rs lines 11-16); the
`Arc<dyn Vfs>` is identified by a numeric id. -/
structure MountPoint where
  sandbox_path : List String
  vfsId : Nat
deriving DecidableEq, Repr

/-- Whether `translate_path` of a mount rooted at `root` accepts guest
path `p`: the component-boundary prefix test of bind.rs line 57 /
sqlite.rs line 752. -/
def acceptsPath (root p : List String) : Bool :=
  List.isPrefixOf root p

/-- `Path::components().count()` of an absolute path (the sort key of
`add_mount`, mount.rs line 42): the root component plus one per
name. -/
def componentsCount (l : List String) : Nat :=
  l.length + 1

/-- `MountTable` (mount.rs lines 24-26). -/
structure MountTable where
  mounts : List MountPoint
deriving DecidableEq, Repr

/-- Sort relation of `add_mount`: `Reverse(components().count())`
ascending, i.e. component count descending. -/
def depthGE (a b : MountPoint) : Prop :=
  componentsCount b.sandbox_path ≤ componentsCount a.sandbox_path

instance : DecidableRel depthGE := fun a b =>
  inferInstanceAs (Decidable (_ ≤ _))

/-- `MountTable::new` (mount.rs lines 30-32). -/
def MountTable.new : MountTable := ⟨[]⟩

/-- `MountTable::add_mount` (mount.rs lines 38-43): push, then stably
sort by component count descending.  (`Vec::sort_by_key` is a stable
sort; among mounts accepting a common path the component counts are
distinct, so any stable or unstable sort yields the same `resolve`
results.) -/
def MountTable.add_mount (t : MountTable) (m : MountPoint) : MountTable :=
  ⟨List.insertionSort depthGE (t.mounts ++ [m])⟩

/-- `MountTable::resolve` (mount.rs lines 51-59): the first mount in
list order whose `translate_path` accepts the path. -/
def MountTable.resolve (t : MountTable) (p : List String) :
    Option MountPoint :=
  t.mounts.find? (fun m => acceptsPath m.sandbox_path p)

/-- A table built by a sequence of `add_mount` calls starting from the
empty table. -/
def buildTable (specs : List MountPoint) : MountTable :=
  specs.foldl MountTable.add_mount MountTable.new

end MountModel

namespace CloneModel

open AgentFs

/-!
## Fork/clone fd-table inheritance
(`src/sandbox/src/syscall/process.rs`, registry in
`src/agentfs/src/sandbox/mod.rs`)

An `FdTable` value is an `Arc<Mutex<FdTableInner>>`; sharing is
modelled by a heap: `tables` maps an Arc identity (a `Nat`) to the
inner state, and a table reference is such an id.  The global
`FD_TABLES` registry maps a pid to a table reference.  `FdTable::clone`
(the shallow clone) copies the reference; `FdTable::deep_clone`
(fdtable.rs lines 93-106) allocates a fresh Arc holding a copy of the
inner state.  A mutation performed through a reference rewrites the
heap cell it denotes, so it is observed by every holder of the same
reference and by no holder of a different one.
-/

/-- The heap of fd-table inner states, the pid registry, and the next
fresh Arc identity. -/
structure SandboxWorld where
  tables : List (Nat × FdTableState)
  reg : List (Int × Nat)
  fresh : Nat
deriving DecidableEq, Repr

/-- Dereference a table reference. -/
def heapGet (w : SandboxWorld) (id : Nat) : Option FdTableState :=
  (w.tables.find? (fun p => p.1 = id)).map (fun p => p.2)

/-- Registry lookup (`get_fd_table`, sandbox/mod.rs lines 57-62,
without the or-insert default). -/
def regLookup (w : SandboxWorld) (pid : Int) : Option Nat :=
  (w.reg.find? (fun p => p.1 = pid)).map (fun p => p.2)

/-- `insert_fd_table` (sandbox/mod.rs lines 65-70). -/
def insert_fd_table (w : SandboxWorld) (pid : Int) (id : Nat) :
    SandboxWorld :=
  { w with reg := (pid, id) :: w.reg.filter (fun p => p.1 ≠ pid) }

/-- `FdTable::deep_clone` (fdtable.rs lines 93-106): a fresh Arc whose
inner state is a copy of the source's. -/
def deep_clone (w : SandboxWorld) (srcRef : Nat) :
    Option (Nat × SandboxWorld) :=
  match heapGet w srcRef with
  | none => none
  | some t =>
      some (w.fresh, { w with tables := (w.fresh, t) :: w.tables
                              fresh := w.fresh + 1 })

/-- `CLONE_FILES` (process.rs line 77). -/
def CLONE_FILES : Int := 0x400

/-- The registration step of `handle_clone` (process.rs lines 74-91),
given the parent's table reference and the injected syscall's return
value `childPid`: on success, share the reference iff the
`CLONE_FILES` bit is set in the flags, else register a deep copy. -/
def handle_clone_reg (w : SandboxWorld) (parentRef : Nat)
    (childPid flags : Int) : Option SandboxWorld :=
  if 0 < childPid then
    if Int.land flags CLONE_FILES ≠ 0 then
      some (insert_fd_table w childPid parentRef)
    else
      match deep_clone w parentRef with
      | some (nid, w') => some (insert_fd_table w' childPid nid)
      | none => none
  else some w

/-- The registration step of `handle_fork` (process.rs lines 18-23):
always a deep copy. -/
def handle_fork_reg (w : SandboxWorld) (parentRef : Nat)
    (childPid : Int) : Option SandboxWorld :=
  if 0 < childPid then
    match deep_clone w parentRef with
    | some (nid, w') => some (insert_fd_table w' childPid nid)
    | none => none
  else some w

/-- The registration step of `handle_vfork` (process.rs lines 47-53):
always a deep copy. -/
def handle_vfork_reg (w : SandboxWorld) (parentRef : Nat)
    (childPid : Int) : Option SandboxWorld :=
  if 0 < childPid then
    match deep_clone w parentRef with
    | some (nid, w') => some (insert_fd_table w' childPid nid)
    | none => none
  else some w

/-- The registration step of `handle_clone3` (process.rs lines 110-117):
always a deep copy (flags are not inspected). -/
def handle_clone3_reg (w : SandboxWorld) (parentRef : Nat)
    (childPid : Int) : Option SandboxWorld :=
  if 0 < childPid then
    match deep_clone w parentRef with
    | some (nid, w') => some (insert_fd_table w' childPid nid)
    | none => none
  else some w

/-- A mutation of the fd table performed through a reference: rewrite
the heap cell the reference denotes. -/
def updateTable (w : SandboxWorld) (id : Nat)
    (f : FdTableState → FdTableState) : SandboxWorld :=
  { w with tables := w.tables.map (fun p => if p.1 = id then (p.1, f p.2) else p) }

/-- The fd table a pid observes: dereference its registered
reference. -/
def viewOfPid (w : SandboxWorld) (pid : Int) : Option FdTableState :=
  (regLookup w pid).bind (heapGet w)

/-- Heap-freshness discipline of the model: every allocated Arc
identity is below `fresh`. -/
def freshOk (w : SandboxWorld) : Bool :=
  w.tables.all (fun p => p.1 < w.fresh)

/-- A sample fd-table mutation (bump the next-fd counter), used to
instantiate "a modification through a reference" concretely. -/
def bumpNext (t : FdTableState) : FdTableState :=
  { t with next_vfd := t.next_vfd + 1 }

end CloneModel

namespace PosixFs

/-!
## SQLite-backed file I/O (`src/agentfs/src/vfs/sqlite.rs`)

The `fs_data` rows of one inode are an in-memory list of chunks; bytes
are `Nat`s.  The SQL `WHERE` clauses of `SqliteFile::read` become a
filter, its `ORDER BY offset` a sort by offset.
-/

/-- One `fs_data` row: `(offset, size, data)` (the `ino` column is
implicit — each file state holds only its own rows). -/
structure Chunk where
  off : Int
  size : Int
  data : List Nat
deriving DecidableEq, Repr

/-- `CHUNK_SIZE` (sqlite.rs line 423): 64 KiB. -/
def CHUNK_SIZE : Nat := 65536

/-- The in-memory state behind a `SqliteFile` handle for a regular
file: its `fs_data` rows, its inode `size` column, and the handle's
current `offset` (sqlite.rs lines 396-407). -/
structure SqFile where
  chunks : List Chunk
  size : Int
  offset : Int
deriving DecidableEq, Repr

/-- The write loop of `SqliteFile::write` (sqlite.rs lines 510-534):
while bytes remain, take the next up-to-64KiB piece, `DELETE` any chunk
row of this inode at exactly this offset, and `INSERT` the new row. -/
def writeLoop (cs : List Chunk) (o : Int) : List Nat → List Chunk
  | [] => cs
  | b :: bs =>
      writeLoop
        ((cs.filter (fun c => c.off ≠ o)) ++
          [⟨ o, ((min CHUNK_SIZE (b :: bs).length : Nat) : Int)
           , (b :: bs).take (min CHUNK_SIZE (b :: bs).length)⟩])
        (o + ((min CHUNK_SIZE (b :: bs).length : Nat) : Int))
        ((b :: bs).drop (min CHUNK_SIZE (b :: bs).length))
termination_by b => b.length
decreasing_by
  simp only [List.length_drop, CHUNK_SIZE, List.length_cons]
  omega

/-- Specification-side description of the rows `writeLoop` inserts
when no prior chunk of the file shares an offset with them: the buffer
split into up-to-64KiB pieces at consecutive offsets. -/
def mkChunks (o : Int) : List Nat → List Chunk
  | [] => []
  | b :: bs =>
      ⟨ o, ((min CHUNK_SIZE (b :: bs).length : Nat) : Int)
      , (b :: bs).take (min CHUNK_SIZE (b :: bs).length)⟩ ::
        mkChunks (o + ((min CHUNK_SIZE (b :: bs).length : Nat) : Int))
          ((b :: bs).drop (min CHUNK_SIZE (b :: bs).length))
termination_by b => b.length
decreasing_by
  simp only [List.length_drop, CHUNK_SIZE, List.length_cons]
  omega

/-- `SqliteFile::write` (sqlite.rs lines 505-554): run the chunk loop
at the current offset, set the inode size to
`MAX(size, offset + written)`, advance the offset, and return the byte
count. -/
def SqFile.write (f : SqFile) (buf : List Nat) : SqFile × Nat :=
  ( { chunks := writeLoop f.chunks f.offset buf
      size := max f.size (f.offset + (buf.length : Int))
      offset := f.offset + (buf.length : Int) }
  , buf.length )

/-- One iteration of the read loop of `SqliteFile::read` (sqlite.rs
lines 447-497): copy the intersection of the chunk with the read window
`[readStart, readEnd)` into the destination buffer and extend the byte
count.  The overlap uses the actual `data` length, as the source does. -/
def readStep (readStart readEnd : Int) (acc : List Nat × Nat)
    (c : Chunk) : List Nat × Nat :=
  let buf := acc.1
  let total := acc.2
  let chunkStart := c.off
  let chunkEnd := c.off + (c.data.length : Int)
  let overlapStart := max chunkStart readStart
  let overlapEnd := min chunkEnd readEnd
  if overlapStart < overlapEnd then
    let srcOff := (overlapStart - chunkStart).toNat
    let dstOff := (overlapStart - readStart).toNat
    let len := (overlapEnd - overlapStart).toNat
    ( buf.take dstOff ++ ((c.data.drop srcOff).take len) ++
        buf.drop (dstOff + len)
    , max total (dstOff + len) )
  else (buf, total)

/-- The rows the read query of sqlite.rs lines 435-438 yields: chunks
with `offset < end AND offset + size > start`, in ascending offset
order. -/
def readRows (cs : List Chunk) (start «end» : Int) : List Chunk :=
  List.insertionSort (fun c d => c.off ≤ d.off)
    (cs.filter (fun c => c.off < «end» ∧ start < c.off + c.size))

/-- `SqliteFile::read` (sqlite.rs lines 427-503) into a zeroed guest
buffer of length `len` (the handler allocates `vec![0u8; len]`,
file.rs line 133): fold the copy step over the overlapping rows,
advance the offset by the bytes placed, and return the buffer and the
count. -/
def SqFile.read (f : SqFile) (len : Nat) : (List Nat × Nat) × SqFile :=
  let o := f.offset
  let rows := readRows f.chunks o (o + (len : Int))
  let r := rows.foldl (readStep o (o + (len : Int))) (List.replicate len 0, 0)
  (r, { f with offset := f.offset + (r.2 : Int) })

/-- `libc::SEEK_SET` / `SEEK_CUR` / `SEEK_END`. -/
def SEEK_SET : Int := 0
def SEEK_CUR : Int := 1
def SEEK_END : Int := 2

/-- `SqliteFile::seek` (sqlite.rs lines 556-589). -/
def SqFile.seek (f : SqFile) (pos whence : Int) :
    Except AgentFs.VfsError (Int × SqFile) :=
  let newOffset? : Except AgentFs.VfsError Int :=
    if whence = SEEK_SET then Except.ok pos
    else if whence = SEEK_CUR then Except.ok (f.offset + pos)
    else if whence = SEEK_END then Except.ok (f.size + pos)
    else Except.error (AgentFs.VfsError.InvalidInput "Invalid whence")
  match newOffset? with
  | Except.error e => Except.error e
  | Except.ok newOffset =>
      if newOffset < 0 then
        Except.error (AgentFs.VfsError.InvalidInput "Negative seek offset")
      else Except.ok (newOffset, { f with offset := newOffset })

end PosixFs

namespace Getdents

/-!
## `getdents64` on a virtual directory
(`SqliteFile::getdents`, sqlite.rs lines 679-735, and the formatting
loop of `handle_getdents64`, file.rs lines 846-891)

Directory-entry names are byte lists (SQL `TEXT` compares bytewise
under the default collation, and `name.as_bytes()` is used when
formatting); `"."` is `[46]` and `".."` is `[46, 46]`.
-/

/-- File-type constants (`libc::DT_*` and the `S_IF*` mode bits of
sqlite.rs lines 23-29). -/
def DT_UNKNOWN : Nat := 0
def DT_DIR : Nat := 4
def DT_REG : Nat := 8
def DT_LNK : Nat := 10
def S_IFMT : Nat := 0o170000
def S_IFREG : Nat := 0o100000
def S_IFDIR : Nat := 0o040000
def S_IFLNK : Nat := 0o120000

/-- The `d_type` computation of sqlite.rs lines 721-726. -/
def dtypeOf (mode : Nat) : Nat :=
  if mode.land S_IFMT = S_IFDIR then DT_DIR
  else if mode.land S_IFMT = S_IFREG then DT_REG
  else if mode.land S_IFMT = S_IFLNK then DT_LNK
  else DT_UNKNOWN

/-- One row of the directory query of sqlite.rs lines 693-698:
`(d.ino, d.name, i.mode)` for a child dentry joined with its inode. -/
structure DirRow where
  ino : Nat
  name : List Nat
  mode : Nat
deriving DecidableEq, Repr

/-- Bytewise lexicographic order on names (SQL `ORDER BY d.name`). -/
def nameLe : List Nat → List Nat → Bool
  | [], _ => true
  | _ :: _, [] => false
  | a :: as_, b :: bs =>
      if a < b then true
      else if b < a then false
      else nameLe as_ bs

/-- The state behind a `SqliteFile` handle for a directory: its own
inode number, its child rows, and the handle's `dir_pos`
(sqlite.rs line 406). -/
structure SqDir where
  ino : Nat
  rows : List DirRow
  dirPos : Nat
deriving DecidableEq, Repr

/-- `SqliteFile::getdents` (sqlite.rs lines 679-735): on the first call
emit `.` and `..` (typed as directories, both carrying the directory's
own inode) followed by the child rows ordered by name with their mode
mapped to a `d_type`, and set `dir_pos := 1`; on any later call return
the empty list. -/
def SqDir.getdents (d : SqDir) : List (Nat × List Nat × Nat) × SqDir :=
  if d.dirPos > 0 then ([], d)
  else
    let sorted := List.insertionSort (fun a b => nameLe a.name b.name) d.rows
    ( (d.ino, [46], DT_DIR) :: (d.ino, [46, 46], DT_DIR) ::
        sorted.map (fun r => (r.ino, r.name, dtypeOf r.mode))
    , { d with dirPos := 1 } )

/-- Little-endian byte encoding of a `u64` (`to_ne_bytes` on
x86-64). -/
def le64 (n : Nat) : List Nat :=
  (List.range 8).map (fun i => n / 256 ^ i % 256)

/-- Little-endian byte encoding of an `i64` (`to_ne_bytes` on x86-64):
two's-complement bit pattern. -/
def le64i (i : Int) : List Nat :=
  le64 ((i % (2 ^ 64 : Nat)).toNat)

/-- Little-endian byte encoding of a `u16`. -/
def le16 (n : Nat) : List Nat :=
  [n % 256, n / 256 % 256]

/-- The record length of file.rs line 863:
`((19 + name_len + 7) / 8) * 8` with `name_len = name.len() + 1`. -/
def reclenOf (nameLen : Nat) : Nat :=
  ((19 + (nameLen + 1) + 7) / 8) * 8

/-- The pad-to-8 loop of file.rs lines 878-880. -/
def padTo8 (l : List Nat) : List Nat :=
  l ++ List.replicate ((8 - l.length % 8) % 8) 0

/-- The formatting loop of `handle_getdents64` (file.rs lines 857-883):
for each `(ino, name, d_type)` compute the 8-byte-aligned record
length, stop as soon as a record would overflow the guest buffer size
`count`, and otherwise append the `linux_dirent64` record — inode,
`d_off`, record length, type, null-terminated name — padding the
buffer to 8 bytes; `d_off` starts at 1 and increments per record. -/
def dentLoop (count : Nat) :
    List (Nat × List Nat × Nat) → List Nat × Int → List Nat × Int
  | [], acc => acc
  | (ino, name, dt) :: rest, (buf, off) =>
      let reclen := reclenOf name.length
      if buf.length + reclen > count then (buf, off)
      else
        dentLoop count rest
          ( padTo8 (buf ++ le64 ino ++ le64i off ++ le16 reclen ++
              [dt] ++ name ++ [0])
          , off + 1 )

/-- The virtual branch of `handle_getdents64` (file.rs lines 846-891):
fetch the directory entries, format them into the guest buffer of size
`count`, and return the number of bytes written, the written bytes and
the directory state after. -/
def handle_getdents64_virtual (d : SqDir) (count : Nat) :
    Int × List Nat × SqDir :=
  let r := d.getdents
  let fmt := dentLoop count r.1 ([], 1)
  ((fmt.1.length : Int), fmt.1, r.2)

/-- Specification-side per-record encoding: the bytes `dentLoop`
appends for one entry when the buffer before it is 8-byte aligned.  The
trailing padding brings the record to exactly `reclenOf name.length`
bytes. -/
def encRec (e : Nat × List Nat × Nat) (off : Int) : List Nat :=
  le64 e.1 ++ le64i off ++ le16 (reclenOf e.2.1.length) ++ [e.2.2] ++
    e.2.1 ++ [0] ++
    List.replicate (reclenOf e.2.1.length - (20 + e.2.1.length)) 0

/-- Specification-side concatenation of the records for a list of
entries with consecutive `d_off` values starting at `off`. -/
def dentsJoin : List (Nat × List Nat × Nat) → Int → List Nat
  | [], _ => []
  | e :: rest, off => encRec e off ++ dentsJoin rest (off + 1)

/-- Specification-side sum of the record lengths of a list of
entries. -/
def recSum : List (Nat × List Nat × Nat) → Nat
  | [] => 0
  | e :: rest => reclenOf e.2.1.length + recSum rest

/-- Specification-side count of records that fit: the length of the
maximal prefix of the entries whose cumulative record lengths stay
within `count`, starting from `acc` bytes already written. -/
def fitCount (count : Nat) : List (Nat × List Nat × Nat) → Nat → Nat
  | [], _ => 0
  | (_, name, _) :: rest, acc =>
      let reclen := reclenOf name.length
      if acc + reclen > count then 0
      else 1 + fitCount count rest (acc + reclen)

end Getdents

namespace SdkFs

/-!
## The PosixFs SDK filesystem (`src/sdk/rust/src/filesystem.rs`)

Paths are modelled as lists of components of an absolute path; the
string functions `normalize_path`/`split_path` (filesystem.rs lines
176-226) correspond to `normalize` below, which drops empty components
and resolves `.` and `..`.  A stored symlink target string is modelled
by whether it starts with `/` plus its component list.
-/

/-- A row of `fs_inode` (keyed by `ino`). -/
structure InodeRow where
  mode : Nat
  uid : Nat
  gid : Nat
  size : Int
  atime : Int
  mtime : Int
  ctime : Int
deriving DecidableEq, Repr

/-- A row of `fs_dentry`. -/
structure Dentry where
  name : String
  parent : Int
  ino : Int
deriving DecidableEq, Repr

/-- A symlink target string: whether it is absolute, and its
components (possibly containing `.`, `..` or empty components). -/
structure SymTarget where
  abs : Bool
  comps : List String
deriving DecidableEq, Repr

/-- The three filesystem tables plus the symlink side table. -/
structure Fs where
  inodes : List (Int × InodeRow)
  dentries : List Dentry
  symlinks : List (Int × SymTarget)
deriving DecidableEq, Repr

/-- `Stats` (filesystem.rs lines 20-31). -/
structure Stats where
  ino : Int
  mode : Nat
  nlink : Nat
  uid : Nat
  gid : Nat
  size : Int
  atime : Int
  mtime : Int
  ctime : Int
deriving DecidableEq, Repr

/-- `ROOT_INO` (filesystem.rs line 17). -/
def ROOT_INO : Int := 1

/-- `normalize_path`/`split_path` (filesystem.rs lines 176-226) on the
component list of a path: drop empty components, skip `.`, pop on
`..` (never above the root). -/
def normalize (p : List String) : List String :=
  (p.filter (fun c => c ≠ "")).foldl
    (fun acc c =>
      if c = "." then acc
      else if c = ".." then acc.dropLast
      else acc ++ [c])
    []

/-- The descent of `resolve_path` (filesystem.rs lines 304-323): look
each component up as `(parent_ino, name)` in `fs_dentry`. -/
def walk (fs : Fs) : Int → List String → Option Int
  | cur, [] => some cur
  | cur, c :: rest =>
      match fs.dentries.find? (fun d => d.parent = cur ∧ d.name = c) with
      | some d => walk fs d.ino rest
      | none => none

/-- `resolve_path` (filesystem.rs lines 298-326): normalize, then
descend from the root inode. -/
def resolvePath (fs : Fs) (p : List String) : Option Int :=
  walk fs ROOT_INO (normalize p)

/-- `fs_inode` lookup by inode number. -/
def inodeGet (fs : Fs) (ino : Int) : Option InodeRow :=
  (fs.inodes.find? (fun r => r.1 = ino)).map (fun r => r.2)

/-- `get_link_count` (filesystem.rs lines 229-248). -/
def linkCount (fs : Fs) (ino : Int) : Nat :=
  (fs.dentries.filter (fun d => d.ino = ino)).length

/-- `build_stats_from_row` (filesystem.rs lines 254-295). -/
def buildStats (fs : Fs) (ino : Int) (r : InodeRow) : Stats :=
  { ino := ino, mode := r.mode, nlink := linkCount fs ino
    uid := r.uid, gid := r.gid, size := r.size
    atime := r.atime, mtime := r.mtime, ctime := r.ctime }

/-- `readlink` (filesystem.rs lines 706-754): resolve, reject
non-symlink inodes, and return the stored target. -/
def readlink (fs : Fs) (p : List String) :
    Except String (Option SymTarget) :=
  match resolvePath fs p with
  | none => Except.ok none
  | some ino =>
      match inodeGet fs ino with
      | none => Except.ok none
      | some row =>
          if row.mode.land Getdents.S_IFMT ≠ Getdents.S_IFLNK then
            Except.error "Not a symbolic link"
          else
            match (fs.symlinks.find? (fun s => s.1 = ino)).map
                (fun s => s.2) with
            | some t => Except.ok (some t)
            | none => Except.ok none

/-- The body of the symlink-following loop of `stat` (filesystem.rs
lines 366-421), with the remaining iteration count as fuel: resolve
the current path; if the inode is a symlink, read its target, rebase a
relative target at the symlink's parent directory, normalize, and
continue; otherwise return the stats.  Exhausted fuel is the
`"Too many levels of symbolic links"` bail-out of line 424. -/
def statLoop (fs : Fs) : Nat → List String → Except String (Option Stats)
  | 0, _ => Except.error "Too many levels of symbolic links"
  | fuel + 1, cur =>
      match resolvePath fs cur with
      | none => Except.ok none
      | some ino =>
          match inodeGet fs ino with
          | none => Except.ok none
          | some row =>
              if row.mode.land Getdents.S_IFMT = Getdents.S_IFLNK then
                match readlink fs cur with
                | Except.error e => Except.error e
                | Except.ok none => Except.error "Symlink has no target"
                | Except.ok (some t) =>
                    statLoop fs fuel
                      (normalize
                        (if t.abs then t.comps else cur.dropLast ++ t.comps))
              else Except.ok (some (buildStats fs ino row))

/-- `stat` (filesystem.rs lines 359-425): follow symlinks for at most
40 iterations. -/
def stat (fs : Fs) (p : List String) : Except String (Option Stats) :=
  statLoop fs 40 (normalize p)

/-- `lstat` (filesystem.rs lines 329-356): resolve and return the
inode's stats without following symlinks. -/
def lstat (fs : Fs) (p : List String) : Except String (Option Stats) :=
  match resolvePath fs (normalize p) with
  | none => Except.ok none
  | some ino =>
      match inodeGet fs ino with
      | none => Except.ok none
      | some row => Except.ok (some (buildStats fs ino row))

end SdkFs

namespace SqliteVfsM

open AgentFs

/-!
## `SqliteVfs::stat` (`src/agentfs/src/vfs/sqlite.rs` lines 779-824)

The mount-serving backend.  Guest paths and the mount point are
component lists as in `MountModel`; `resolve_path` (sqlite.rs lines
240-303) strips the mount prefix and walks `fs_dentry` only — it never
consults `fs_symlink`.
-/

/-- A row of the agentfs `fs_inode` table. -/
structure InodeRow where
  mode : Nat
  uid : Nat
  gid : Nat
  size : Int
  atime : Int
  mtime : Int
  ctime : Int
deriving DecidableEq, Repr

/-- A row of the agentfs `fs_dentry` table: `(name, parent_ino, ino)`. -/
structure Dentry where
  name : String
  parent : Int
  ino : Int
deriving DecidableEq, Repr

/-- The agentfs database tables used by `stat` (the `fs_symlink` table
is present in the schema but `resolve_path`/`stat` never read it). -/
structure Db where
  inodes : List (Int × InodeRow)
  dentries : List Dentry
deriving DecidableEq, Repr

/-- `ROOT_INO` (sqlite.rs line 31). -/
def ROOT_INO : Int := 1

/-- The component descent of `resolve_path` (sqlite.rs lines 264-302):
empty components are skipped; each name is looked up among the rows
with the current parent inode (the query fetches by `parent_ino` and
the name is filtered manually, first match wins). -/
def walkQ (db : Db) : Int → List String → Except VfsError Int
  | cur, [] => Except.ok cur
  | cur, c :: rest =>
      if c = "" then walkQ db cur rest
      else
        match (db.dentries.filter (fun d => d.parent = cur)).find?
            (fun d => d.name = c) with
        | some d => walkQ db d.ino rest
        | none => Except.error VfsError.NotFound

/-- `resolve_path` (sqlite.rs lines 240-303): require the path to be
the mount point or extend it at a component boundary, then walk the
relative components from the root inode. -/
def resolve_path (db : Db) (mount p : List String) :
    Except VfsError Int :=
  if List.isPrefixOf mount p then
    walkQ db ROOT_INO (p.drop mount.length)
  else Except.error VfsError.NotFound

/-- The kernel `stat` layout as filled by sqlite.rs lines 801-818. -/
structure KStat where
  st_ino : Int
  st_nlink : Nat
  st_mode : Nat
  st_uid : Nat
  st_gid : Nat
  st_size : Int
  st_blksize : Int
  st_blocks : Int
  st_atime : Int
  st_mtime : Int
  st_ctime : Int
deriving DecidableEq, Repr

/-- `SqliteVfs::stat` (sqlite.rs lines 779-824): resolve the path to an
inode (no symlink processing), fetch its row, and build the stat
structure with `st_nlink = 1` and `st_blocks = (size + 511) / 512`. -/
def stat (db : Db) (mount p : List String) : Except VfsError KStat :=
  match resolve_path db mount p with
  | Except.error e => Except.error e
  | Except.ok ino =>
      match (db.inodes.find? (fun r => r.1 = ino)).map (fun r => r.2) with
      | none => Except.error VfsError.NotFound
      | some r =>
          Except.ok
            { st_ino := ino, st_nlink := 1, st_mode := r.mode
              st_uid := r.uid, st_gid := r.gid, st_size := r.size
              st_blksize := 4096
              st_blocks := Int.tdiv (r.size + 511) 512
              st_atime := r.atime, st_mtime := r.mtime
              st_ctime := r.ctime }

end SqliteVfsM





/-!
# Theorems

Helper lemmas first, then one theorem per claim (with a witness or a
counterexample where required).
-/

namespace AgentFs

theorem mem_keysOf {l : List (Int × FdEntry)} {a : Int} :
    a ∈ keysOf l ↔ ∃ e, (a, e) ∈ l := by
  constructor
  · intro h
    rcases List.mem_map.mp h with ⟨⟨p1, p2⟩, hp, hpa⟩
    exact ⟨p2, by simpa [← hpa] using hp⟩
  · rintro ⟨e, he⟩
    exact List.mem_map.mpr ⟨(a, e), he, rfl⟩

theorem lookupEntry_eq_none {l : List (Int × FdEntry)} {k : Int} :
    lookupEntry k l = none ↔ k ∉ keysOf l := by
  simp only [lookupEntry, Option.map_eq_none', List.find?_eq_none, mem_keysOf]
  constructor
  · rintro h ⟨e, he⟩
    exact h (k, e) he (by simp)
  · rintro h ⟨p1, p2⟩ hp hpk
    have hp1 : p1 = k := by simpa using hpk
    exact h ⟨p2, by simpa [hp1] using hp⟩

theorem lookupEntry_isSome {l : List (Int × FdEntry)} {k : Int}
    (h : k ∈ keysOf l) : ∃ e, lookupEntry k l = some e := by
  cases he : lookupEntry k l with
  | none => exact absurd h (lookupEntry_eq_none.mp he)
  | some e => exact ⟨e, rfl⟩

theorem lookupEntry_mem {l : List (Int × FdEntry)} {k : Int} {e : FdEntry}
    (h : lookupEntry k l = some e) : k ∈ keysOf l := by
  rcases Option.map_eq_some'.mp h with ⟨⟨p1, p2⟩, hp, hpe⟩
  have h1 : p1 = k := by simpa using List.find?_some hp
  have h2 := List.mem_of_find?_eq_some hp
  exact mem_keysOf.mpr ⟨p2, by simpa [h1] using h2⟩

theorem mem_keysOf_filter_ne {l : List (Int × FdEntry)} {k a : Int} :
    a ∈ keysOf (l.filter (fun p => p.1 ≠ k)) ↔ a ∈ keysOf l ∧ a ≠ k := by
  simp only [mem_keysOf, List.mem_filter]
  constructor
  · rintro ⟨e, he, hne⟩
    exact ⟨⟨e, he⟩, by simpa using hne⟩
  · rintro ⟨⟨e, he⟩, hne⟩
    exact ⟨e, he, by simpa using hne⟩

theorem mem_keysOf_insertEntry {l : List (Int × FdEntry)} {k a : Int}
    {v : FdEntry} :
    a ∈ keysOf (insertEntry k v l) ↔ a = k ∨ (a ∈ keysOf l ∧ a ≠ k) := by
  simp only [insertEntry, keysOf, List.map_cons, List.mem_cons]
  constructor
  · rintro (h | h)
    · exact Or.inl h
    · exact Or.inr (mem_keysOf_filter_ne.mp h)
  · rintro (h | h)
    · exact Or.inl h
    · exact Or.inr (mem_keysOf_filter_ne.mpr h)

theorem mem_keysOf_removeEntry {l : List (Int × FdEntry)} {k a : Int} :
    a ∈ keysOf (removeEntry k l) ↔ a ∈ keysOf l ∧ a ≠ k :=
  mem_keysOf_filter_ne

theorem nodup_keysOf_filter_ne {l : List (Int × FdEntry)} {k : Int}
    (h : (keysOf l).Nodup) :
    (keysOf (l.filter (fun p => p.1 ≠ k))).Nodup :=
  List.Nodup.sublist (List.Sublist.map _ (List.filter_sublist l)) h

theorem nodup_keysOf_insertEntry {l : List (Int × FdEntry)} {k : Int}
    {v : FdEntry} (h : (keysOf l).Nodup) :
    (keysOf (insertEntry k v l)).Nodup := by
  simp only [insertEntry, keysOf, List.map_cons]
  refine List.nodup_cons.mpr ⟨?_, nodup_keysOf_filter_ne h⟩
  intro hk
  exact (mem_keysOf_filter_ne.mp hk).2 rfl

theorem lookupEntry_insertEntry_self {l : List (Int × FdEntry)} {k : Int}
    {v : FdEntry} : lookupEntry k (insertEntry k v l) = some v := by
  simp [lookupEntry, insertEntry, List.find?_cons]

theorem lookupEntry_insertEntry_ne {l : List (Int × FdEntry)} {k a : Int}
    {v : FdEntry} (h : a ≠ k) :
    lookupEntry a (insertEntry k v l) = lookupEntry a l := by
  simp only [lookupEntry, insertEntry]
  rw [List.find?_cons_of_neg _ (by simpa using fun hh => h hh.symm)]
  congr 1
  induction l with
  | nil => rfl
  | cons p ps ih =>
      by_cases hp : p.1 = k
      · rw [List.filter_cons_of_neg (by simpa using hp),
          List.find?_cons_of_neg _ (by simp only [hp, decide_eq_true_eq]; exact fun hh => h hh.symm), ih]
      · rw [List.filter_cons_of_pos (by simpa using hp)]
        by_cases hpa : p.1 = a
        · rw [List.find?_cons_of_pos _ (by simpa using hpa),
            List.find?_cons_of_pos _ (by simpa using hpa)]
        · rw [List.find?_cons_of_neg _ (by simpa using hpa),
            List.find?_cons_of_neg _ (by simpa using hpa), ih]

theorem filter_ne_eq_self {l : List (Int × FdEntry)} {k : Int}
    (h : k ∉ keysOf l) : l.filter (fun p => p.1 ≠ k) = l := by
  refine List.filter_eq_self.mpr ?_
  rintro ⟨p1, p2⟩ hp
  simp only [ne_eq, decide_eq_true_eq]
  intro hpk
  exact h (mem_keysOf.mpr ⟨p2, by simpa [hpk] using hp⟩)

instance : Std.Antisymm (fun (x1 x2 : Int) => x1 ≤ x2) :=
  ⟨fun h1 h2 => le_antisymm h1 h2⟩

theorem popMin_eq_none {l : List Int} : popMin l = none ↔ l = [] := by
  cases l with
  | nil => simp [popMin, listMin?]
  | cons x xs => simp [popMin, listMin?, List.min?]

theorem popMin_some {l : List Int} {m : Int} {rest : List Int}
    (h : popMin l = some (m, rest)) :
    m ∈ l ∧ (∀ x ∈ l, m ≤ x) ∧ rest = l.erase m := by
  unfold popMin at h
  cases hm : listMin? l with
  | none => rw [hm] at h; exact absurd h (by simp)
  | some mv =>
      rw [hm] at h
      have hmm : mv = m ∧ l.erase mv = rest := by
        refine ⟨?_, ?_⟩ <;> · injection h with h1; cases h1; rfl
      have hiff := (List.min?_eq_some_iff (α := Int) (fun a => le_refl a)
        (fun a b => min_choice a b) (fun a b c => le_min_iff)).mp hm
      exact ⟨hmm.1 ▸ hiff.1, hmm.1 ▸ hiff.2, hmm.2 ▸ (hmm.1 ▸ rfl)⟩

end AgentFs

namespace AgentFs

theorem firstFree_spec (keys : List Int) (lo : Int) :
    lo ≤ firstFree keys lo ∧ firstFree keys lo ∉ keys ∧
      ∀ w, lo ≤ w → w ∉ keys → firstFree keys lo ≤ w := by
  induction keys, lo using firstFree.induct with
  | case1 keys lo h ih =>
      rw [firstFree, dif_pos h]
      obtain ⟨ih1, ih2, ih3⟩ := ih
      refine ⟨by omega, ?_, ?_⟩
      · intro hmem
        have hne : firstFree (keys.erase lo) (lo + 1) ≠ lo := by omega
        exact ih2 ((List.mem_erase_of_ne hne).mpr hmem)
      · intro w hw hwk
        have hne : w ≠ lo := fun hh => hwk (hh ▸ h)
        refine ih3 w (by omega) ?_
        intro hmem
        exact hwk (List.mem_of_mem_erase hmem)
  | case2 keys lo h =>
      rw [firstFree, dif_neg h]
      exact ⟨le_refl lo, h, fun w hw _ => hw⟩

end AgentFs

namespace AgentFs

theorem FdInv_new : FdInv FdTableState.new := by
  refine ⟨?_, ?_, ?_, ?_, ?_, ?_, ?_⟩ <;> decide

theorem allocate_inv {s : FdTableState} {fo : FileOpsM} {fl v : Int}
    {s' : FdTableState} (hs : FdInv s)
    (h : s.allocate fo fl = some (v, s')) :
    FdInv s' ∧ FIRST_USER_FD ≤ v ∧ v ∉ keysOf s.entries ∧
      s'.entries = insertEntry v ⟨fo, fl⟩ s.entries ∧
      s.next_vfd ≤ s'.next_vfd := by
  obtain ⟨h1, h2, h3, h4, h5, h6, h7⟩ := hs
  unfold FdTableState.allocate at h
  cases hpop : popMin s.free_fds with
  | some p =>
      obtain ⟨m, rest⟩ := p
      rw [hpop] at h
      simp only [Option.some.injEq, Prod.mk.injEq] at h
      obtain ⟨hv, hs'⟩ := h
      subst hv
      subst hs'
      obtain ⟨hm_mem, hm_min, hrest⟩ := popMin_some hpop
      subst hrest
      refine ⟨⟨?_, ?_, ?_, ?_, ?_, ?_, ?_⟩, h2 m hm_mem, h3 m hm_mem,
        rfl, le_refl _⟩
      · exact nodup_keysOf_insertEntry h1
      · intro fd hfd
        exact h2 fd (List.mem_of_mem_erase hfd)
      · intro fd hfd hmem
        have hfd' := (List.Nodup.mem_erase_iff h6).mp hfd
        rcases mem_keysOf_insertEntry.mp hmem with hh | hh
        · exact hfd'.1 hh
        · exact h3 fd hfd'.2 hh.1
      · intro fd hfd
        exact h4 fd (List.mem_of_mem_erase hfd)
      · intro fd hfd
        rcases mem_keysOf_insertEntry.mp hfd with hh | hh
        · subst hh; exact h4 fd hm_mem
        · exact h5 fd hh.1
      · exact List.Nodup.erase _ h6
      · exact h7
  | none =>
      rw [hpop] at h
      have hfree : s.free_fds = [] := popMin_eq_none.mp hpop
      by_cases hmax : s.next_vfd = i32Max
      · rw [if_pos hmax] at h
        obtain ⟨ff1, ff2, ff3⟩ := firstFree_spec (keysOf s.entries) FIRST_USER_FD
        by_cases hg : firstFree (keysOf s.entries) FIRST_USER_FD < i32Max
        · rw [if_pos hg] at h
          simp only [Option.some.injEq, Prod.mk.injEq] at h
          obtain ⟨hv, hs'⟩ := h
          subst hv
          subst hs'
          refine ⟨⟨?_, ?_, ?_, ?_, ?_, ?_, ?_⟩, ff1, ff2, rfl, le_refl _⟩
          · exact nodup_keysOf_insertEntry h1
          · simp [hfree]
          · simp [hfree]
          · simp [hfree]
          · intro fd hfd
            rcases mem_keysOf_insertEntry.mp hfd with hh | hh
            · subst hh
              show firstFree (keysOf s.entries) FIRST_USER_FD < s.next_vfd
              omega
            · exact h5 fd hh.1
          · simp [hfree]
          · exact h7
        · rw [if_neg hg] at h
          exact absurd h (by simp)
      · rw [if_neg hmax] at h
        simp only [Option.some.injEq, Prod.mk.injEq] at h
        obtain ⟨hv, hs'⟩ := h
        subst hv
        subst hs'
        refine ⟨⟨?_, ?_, ?_, ?_, ?_, ?_, ?_⟩, h7, ?_, rfl, ?_⟩
        · exact nodup_keysOf_insertEntry h1
        · simp [hfree]
        · simp [hfree]
        · simp [hfree]
        · intro fd hfd
          rcases mem_keysOf_insertEntry.mp hfd with hh | hh
          · subst hh
            show s.next_vfd < s.next_vfd + 1
            omega
          · have := h5 fd hh.1
            show fd < s.next_vfd + 1
            omega
        · simp [hfree]
        · show FIRST_USER_FD ≤ s.next_vfd + 1
          omega
        · intro hmem
          have := h5 _ hmem
          omega
        · show s.next_vfd ≤ s.next_vfd + 1
          omega

end AgentFs

namespace AgentFs

theorem FdInvCore_new : FdInvCore FdTableState.new := by
  refine ⟨?_, ?_, ?_, ?_⟩ <;> decide

theorem allocate_core {s : FdTableState} {fo : FileOpsM} {fl v : Int}
    {s' : FdTableState} (hs : FdInvCore s)
    (h : s.allocate fo fl = some (v, s')) :
    FdInvCore s' ∧ s'.entries = insertEntry v ⟨fo, fl⟩ s.entries ∧
      (s.next_vfd ∉ keysOf s.entries → v ∉ keysOf s.entries) := by
  obtain ⟨h1, h2, h3, h6⟩ := hs
  unfold FdTableState.allocate at h
  cases hpop : popMin s.free_fds with
  | some p =>
      obtain ⟨m, rest⟩ := p
      rw [hpop] at h
      simp only [Option.some.injEq, Prod.mk.injEq] at h
      obtain ⟨hv, hs'⟩ := h
      subst hv
      subst hs'
      obtain ⟨hm_mem, hm_min, hrest⟩ := popMin_some hpop
      subst hrest
      refine ⟨⟨?_, ?_, ?_, ?_⟩, rfl, fun _ => h3 m hm_mem⟩
      · exact nodup_keysOf_insertEntry h1
      · intro fd hfd
        exact h2 fd (List.mem_of_mem_erase hfd)
      · intro fd hfd hmem
        have hfd' := (List.Nodup.mem_erase_iff h6).mp hfd
        rcases mem_keysOf_insertEntry.mp hmem with hh | hh
        · exact hfd'.1 hh
        · exact h3 fd hfd'.2 hh.1
      · exact List.Nodup.erase _ h6
  | none =>
      rw [hpop] at h
      have hfree : s.free_fds = [] := popMin_eq_none.mp hpop
      by_cases hmax : s.next_vfd = i32Max
      · rw [if_pos hmax] at h
        obtain ⟨ff1, ff2, ff3⟩ := firstFree_spec (keysOf s.entries) FIRST_USER_FD
        by_cases hg : firstFree (keysOf s.entries) FIRST_USER_FD < i32Max
        · rw [if_pos hg] at h
          simp only [Option.some.injEq, Prod.mk.injEq] at h
          obtain ⟨hv, hs'⟩ := h
          subst hv
          subst hs'
          refine ⟨⟨?_, ?_, ?_, ?_⟩, rfl, fun _ => ff2⟩
          · exact nodup_keysOf_insertEntry h1
          · simp [hfree]
          · simp [hfree]
          · simp [hfree]
        · rw [if_neg hg] at h
          exact absurd h (by simp)
      · rw [if_neg hmax] at h
        simp only [Option.some.injEq, Prod.mk.injEq] at h
        obtain ⟨hv, hs'⟩ := h
        subst hv
        subst hs'
        refine ⟨⟨?_, ?_, ?_, ?_⟩, rfl, fun hnext => hnext⟩
        · exact nodup_keysOf_insertEntry h1
        · simp [hfree]
        · simp [hfree]
        · simp [hfree]

theorem allocate_min_invCore {s : FdTableState} {mn : Int} {fo : FileOpsM}
    {fl v : Int} {s' : FdTableState} (hs : FdInvCore s)
    (h : s.allocate_min mn fo fl = some (v, s')) : FdInvCore s' := by
  obtain ⟨h1, h2, h3, h6⟩ := hs
  unfold FdTableState.allocate_min at h
  by_cases hg : firstFree (keysOf s.entries) mn < i32Max
  · rw [if_pos hg] at h
    simp only [Option.some.injEq, Prod.mk.injEq] at h
    obtain ⟨hv, hs'⟩ := h
    subst hv
    subst hs'
    refine ⟨?_, ?_, ?_, ?_⟩
    · exact nodup_keysOf_insertEntry h1
    · intro fd hfd
      exact h2 fd (List.mem_of_mem_filter hfd)
    · intro fd hfd hmem
      have hfd1 := List.mem_of_mem_filter hfd
      have hfd2 : fd ≠ firstFree (keysOf s.entries) mn := by
        have := List.of_mem_filter hfd
        simpa using this
      rcases mem_keysOf_insertEntry.mp hmem with hh | hh
      · exact hfd2 hh
      · exact h3 fd hfd1 hh.1
    · exact List.Nodup.filter _ h6
  · rw [if_neg hg] at h
    exact absurd h (by simp)

theorem allocate_at_invCore {s : FdTableState} {vfd : Int} {fo : FileOpsM}
    {fl : Int} {r : Option FdEntry} {s' : FdTableState} (hs : FdInvCore s)
    (h : s.allocate_at vfd fo fl = (r, s')) : FdInvCore s' := by
  obtain ⟨h1, h2, h3, h6⟩ := hs
  unfold FdTableState.allocate_at at h
  simp only [Prod.mk.injEq] at h
  obtain ⟨hr, hs'⟩ := h
  subst hs'
  refine ⟨?_, ?_, ?_, ?_⟩
  · exact nodup_keysOf_insertEntry h1
  · intro fd hfd
    exact h2 fd (List.mem_of_mem_filter hfd)
  · intro fd hfd hmem
    have hfd1 := List.mem_of_mem_filter hfd
    have hfd2 : fd ≠ vfd := by
      have := List.of_mem_filter hfd
      simpa using this
    rcases mem_keysOf_insertEntry.mp hmem with hh | hh
    · exact hfd2 hh
    · exact h3 fd hfd1 hh.1
  · exact List.Nodup.filter _ h6

theorem deallocate_inv {s : FdTableState} {vfd : Int} {r : Option FdEntry}
    {s' : FdTableState} (hs : FdInv s)
    (h : s.deallocate vfd = (r, s')) : FdInv s' := by
  obtain ⟨h1, h2, h3, h4, h5, h6, h7⟩ := hs
  unfold FdTableState.deallocate at h
  cases hl : lookupEntry vfd s.entries with
  | none =>
      rw [hl] at h
      simp only [Prod.mk.injEq] at h
      obtain ⟨_, hs'⟩ := h
      subst hs'
      exact ⟨h1, h2, h3, h4, h5, h6, h7⟩
  | some e =>
      rw [hl] at h
      simp only [Prod.mk.injEq] at h
      obtain ⟨_, hs'⟩ := h
      subst hs'
      have hvk : vfd ∈ keysOf s.entries := lookupEntry_mem hl
      have hvfree : vfd ∉ s.free_fds := fun hh => h3 vfd hh hvk
      refine ⟨?_, ?_, ?_, ?_, ?_, ?_, h7⟩
      · exact nodup_keysOf_filter_ne h1
      · intro fd hfd
        show FIRST_USER_FD ≤ fd
        by_cases hv3 : FIRST_USER_FD ≤ vfd
        · rw [if_pos hv3] at hfd
          rcases List.mem_cons.mp hfd with hh | hh
          · omega
          · exact h2 fd hh
        · rw [if_neg hv3] at hfd
          exact h2 fd hfd
      · intro fd hfd hmem
        have hmem' := mem_keysOf_removeEntry.mp hmem
        by_cases hv3 : FIRST_USER_FD ≤ vfd
        · rw [if_pos hv3] at hfd
          rcases List.mem_cons.mp hfd with hh | hh
          · exact hmem'.2 hh
          · exact h3 fd hh hmem'.1
        · rw [if_neg hv3] at hfd
          exact h3 fd hfd hmem'.1
      · intro fd hfd
        show fd < s.next_vfd
        by_cases hv3 : FIRST_USER_FD ≤ vfd
        · rw [if_pos hv3] at hfd
          rcases List.mem_cons.mp hfd with hh | hh
          · subst hh; exact h5 fd hvk
          · exact h4 fd hh
        · rw [if_neg hv3] at hfd
          exact h4 fd hfd
      · intro fd hfd
        exact h5 fd (mem_keysOf_removeEntry.mp hfd).1
      · by_cases hv3 : FIRST_USER_FD ≤ vfd
        · rw [if_pos hv3]
          exact List.nodup_cons.mpr ⟨hvfree, h6⟩
        · rw [if_neg hv3]
          exact h6

theorem deallocate_invCore {s : FdTableState} {vfd : Int}
    {r : Option FdEntry} {s' : FdTableState} (hs : FdInvCore s)
    (h : s.deallocate vfd = (r, s')) : FdInvCore s' := by
  obtain ⟨h1, h2, h3, h6⟩ := hs
  unfold FdTableState.deallocate at h
  cases hl : lookupEntry vfd s.entries with
  | none =>
      rw [hl] at h
      simp only [Prod.mk.injEq] at h
      obtain ⟨_, hs'⟩ := h
      subst hs'
      exact ⟨h1, h2, h3, h6⟩
  | some e =>
      rw [hl] at h
      simp only [Prod.mk.injEq] at h
      obtain ⟨_, hs'⟩ := h
      subst hs'
      have hvk : vfd ∈ keysOf s.entries := lookupEntry_mem hl
      have hvfree : vfd ∉ s.free_fds := fun hh => h3 vfd hh hvk
      refine ⟨?_, ?_, ?_, ?_⟩
      · exact nodup_keysOf_filter_ne h1
      · intro fd hfd
        show FIRST_USER_FD ≤ fd
        by_cases hv3 : FIRST_USER_FD ≤ vfd
        · rw [if_pos hv3] at hfd
          rcases List.mem_cons.mp hfd with hh | hh
          · omega
          · exact h2 fd hh
        · rw [if_neg hv3] at hfd
          exact h2 fd hfd
      · intro fd hfd hmem
        have hmem' := mem_keysOf_removeEntry.mp hmem
        by_cases hv3 : FIRST_USER_FD ≤ vfd
        · rw [if_pos hv3] at hfd
          rcases List.mem_cons.mp hfd with hh | hh
          · exact hmem'.2 hh
          · exact h3 fd hh hmem'.1
        · rw [if_neg hv3] at hfd
          exact h3 fd hfd hmem'.1
      · by_cases hv3 : FIRST_USER_FD ≤ vfd
        · rw [if_pos hv3]
          exact List.nodup_cons.mpr ⟨hvfree, h6⟩
        · rw [if_neg hv3]
          exact h6

theorem duplicate_invCore {s : FdTableState} {old v : Int}
    {s' : FdTableState} (hs : FdInvCore s)
    (h : s.duplicate old = some (v, s')) : FdInvCore s' := by
  unfold FdTableState.duplicate at h
  cases hg : s.get old with
  | none => rw [hg] at h; exact absurd h (by simp)
  | some e =>
      rw [hg] at h
      exact (allocate_core hs h).1

theorem duplicate_at_invCore {s : FdTableState} {old new : Int}
    {r : Option FdEntry} {s' : FdTableState} (hs : FdInvCore s)
    (h : s.duplicate_at old new = some (r, s')) : FdInvCore s' := by
  unfold FdTableState.duplicate_at at h
  cases hg : s.get old with
  | none => rw [hg] at h; exact absurd h (by simp)
  | some e =>
      rw [hg] at h
      simp only [Option.some.injEq] at h
      exact allocate_at_invCore hs (by rw [h])

theorem reachable_invCore {s : FdTableState} (hs : Reachable s) :
    FdInvCore s := by
  induction hs with
  | init => exact FdInvCore_new
  | alloc _ h ih => exact (allocate_core ih h).1
  | allocMin _ h ih => exact allocate_min_invCore ih h
  | allocAt _ h ih => exact allocate_at_invCore ih h
  | dealloc _ h ih => exact deallocate_invCore ih h
  | dup _ h ih => exact duplicate_invCore ih h
  | dupAt _ h ih => exact duplicate_at_invCore ih h

end AgentFs

namespace AgentFs

theorem allocate_invAD {s : FdTableState} {fo : FileOpsM} {fl v : Int}
    {s' : FdTableState} (hs : FdInvAD s)
    (h : s.allocate fo fl = some (v, s')) : FdInvAD s' := by
  obtain ⟨hinv, hcomp⟩ := hs
  refine ⟨(allocate_inv hinv h).1, ?_⟩
  obtain ⟨h1, h2, h3, h4, h5, h6, h7⟩ := hinv
  unfold FdTableState.allocate at h
  cases hpop : popMin s.free_fds with
  | some p =>
      obtain ⟨m, rest⟩ := p
      rw [hpop] at h
      simp only [Option.some.injEq, Prod.mk.injEq] at h
      obtain ⟨hv, hs'⟩ := h
      subst hv
      subst hs'
      obtain ⟨hm_mem, hm_min, hrest⟩ := popMin_some hpop
      subst hrest
      intro fd hfd3 hfdlt
      rcases hcomp fd hfd3 hfdlt with hh | hh
      · exact Or.inl (mem_keysOf_insertEntry.mpr
          (by by_cases hfm : fd = m
              · exact Or.inl hfm
              · exact Or.inr ⟨hh, hfm⟩))
      · by_cases hfm : fd = m
        · exact Or.inl (mem_keysOf_insertEntry.mpr (Or.inl hfm))
        · exact Or.inr ((List.Nodup.mem_erase_iff h6).mpr ⟨hfm, hh⟩)
  | none =>
      rw [hpop] at h
      have hfree : s.free_fds = [] := popMin_eq_none.mp hpop
      by_cases hmax : s.next_vfd = i32Max
      · rw [if_pos hmax] at h
        by_cases hg : firstFree (keysOf s.entries) FIRST_USER_FD < i32Max
        · rw [if_pos hg] at h
          simp only [Option.some.injEq, Prod.mk.injEq] at h
          obtain ⟨hv, hs'⟩ := h
          subst hv
          subst hs'
          intro fd hfd3 hfdlt
          rcases hcomp fd hfd3 hfdlt with hh | hh
          · refine Or.inl (mem_keysOf_insertEntry.mpr ?_)
            by_cases hfm : fd = firstFree (keysOf s.entries) FIRST_USER_FD
            · exact Or.inl hfm
            · exact Or.inr ⟨hh, hfm⟩
          · rw [hfree] at hh
            exact absurd hh (List.not_mem_nil fd)
        · rw [if_neg hg] at h
          exact absurd h (by simp)
      · rw [if_neg hmax] at h
        simp only [Option.some.injEq, Prod.mk.injEq] at h
        obtain ⟨hv, hs'⟩ := h
        subst hv
        subst hs'
        intro fd hfd3 hfdlt
        have hfdlt' : fd < s.next_vfd + 1 := hfdlt
        refine Or.inl (mem_keysOf_insertEntry.mpr ?_)
        by_cases hfm : fd = s.next_vfd
        · exact Or.inl hfm
        · have : fd < s.next_vfd := by omega
          rcases hcomp fd hfd3 this with hh | hh
          · exact Or.inr ⟨hh, hfm⟩
          · rw [hfree] at hh
            exact absurd hh (List.not_mem_nil fd)

theorem deallocate_invAD {s : FdTableState} {vfd : Int} {r : Option FdEntry}
    {s' : FdTableState} (hs : FdInvAD s)
    (h : s.deallocate vfd = (r, s')) : FdInvAD s' := by
  obtain ⟨hinv, hcomp⟩ := hs
  refine ⟨deallocate_inv hinv h, ?_⟩
  unfold FdTableState.deallocate at h
  cases hl : lookupEntry vfd s.entries with
  | none =>
      rw [hl] at h
      simp only [Prod.mk.injEq] at h
      obtain ⟨_, hs'⟩ := h
      subst hs'
      exact hcomp
  | some e =>
      rw [hl] at h
      simp only [Prod.mk.injEq] at h
      obtain ⟨_, hs'⟩ := h
      subst hs'
      intro fd hfd3 hfdlt
      rcases hcomp fd hfd3 hfdlt with hh | hh
      · by_cases hfv : fd = vfd
        · subst hfv
          refine Or.inr ?_
          show fd ∈ if FIRST_USER_FD ≤ fd then fd :: s.free_fds else s.free_fds
          rw [if_pos hfd3]
          exact List.mem_cons_self fd s.free_fds
        · exact Or.inl (mem_keysOf_removeEntry.mpr ⟨hh, hfv⟩)
      · refine Or.inr ?_
        show fd ∈ if FIRST_USER_FD ≤ vfd then vfd :: s.free_fds else s.free_fds
        split
        · exact List.mem_cons_of_mem vfd hh
        · exact hh

theorem duplicate_invAD {s : FdTableState} {old v : Int} {s' : FdTableState}
    (hs : FdInvAD s) (h : s.duplicate old = some (v, s')) : FdInvAD s' := by
  unfold FdTableState.duplicate at h
  cases hg : s.get old with
  | none => rw [hg] at h; exact absurd h (by simp)
  | some e =>
      rw [hg] at h
      exact allocate_invAD hs h

theorem FdInvAD_new : FdInvAD FdTableState.new := by
  refine ⟨FdInv_new, ?_⟩
  intro fd hfd3 hfdlt
  have : (FdTableState.new).next_vfd = 3 := rfl
  rw [this] at hfdlt
  have : (3 : Int) ≤ fd := hfd3
  omega

theorem reachableAD_inv {s : FdTableState} (hs : ReachableAD s) :
    FdInvAD s := by
  induction hs with
  | init => exact FdInvAD_new
  | alloc _ h ih => exact allocate_invAD ih h
  | dealloc _ h ih => exact deallocate_invAD ih h
  | dup _ h ih => exact duplicate_invAD ih h

theorem allocate_lowest {s : FdTableState} {fo : FileOpsM} {fl v : Int}
    {s' : FdTableState} (hs : FdInvAD s)
    (h : s.allocate fo fl = some (v, s')) :
    FIRST_USER_FD ≤ v ∧ v ∉ keysOf s.entries ∧
      ∀ w, FIRST_USER_FD ≤ w → w ∉ keysOf s.entries → v ≤ w := by
  obtain ⟨⟨h1, h2, h3, h4, h5, h6, h7⟩, hcomp⟩ := hs
  have hbasic := allocate_inv ⟨h1, h2, h3, h4, h5, h6, h7⟩ h
  refine ⟨hbasic.2.1, hbasic.2.2.1, ?_⟩
  intro w hw3 hwk
  unfold FdTableState.allocate at h
  cases hpop : popMin s.free_fds with
  | some p =>
      obtain ⟨m, rest⟩ := p
      rw [hpop] at h
      simp only [Option.some.injEq, Prod.mk.injEq] at h
      obtain ⟨hv, _⟩ := h
      subst hv
      obtain ⟨hm_mem, hm_min, _⟩ := popMin_some hpop
      by_cases hwlt : w < s.next_vfd
      · rcases hcomp w hw3 hwlt with hh | hh
        · exact absurd hh hwk
        · exact hm_min w hh
      · have := h4 m hm_mem
        omega
  | none =>
      rw [hpop] at h
      have hfree : s.free_fds = [] := popMin_eq_none.mp hpop
      by_cases hmax : s.next_vfd = i32Max
      · rw [if_pos hmax] at h
        by_cases hg : firstFree (keysOf s.entries) FIRST_USER_FD < i32Max
        · rw [if_pos hg] at h
          simp only [Option.some.injEq, Prod.mk.injEq] at h
          obtain ⟨hv, _⟩ := h
          subst hv
          exact (firstFree_spec (keysOf s.entries) FIRST_USER_FD).2.2 w hw3 hwk
        · rw [if_neg hg] at h
          exact absurd h (by simp)
      · rw [if_neg hmax] at h
        simp only [Option.some.injEq, Prod.mk.injEq] at h
        obtain ⟨hv, _⟩ := h
        subst hv
        by_cases hwlt : w < s.next_vfd
        · rcases hcomp w hw3 hwlt with hh | hh
          · exact absurd hh hwk
          · rw [hfree] at hh
            exact absurd hh (List.not_mem_nil w)
        · omega

end AgentFs

namespace AgentFs

/-- C2 (counterexample): from a fresh table, `allocate_at 10` (the
`dup2` path) leaves fds 3..9 unallocated without putting them on the
free heap, so the next `allocate` returns 11 even though 3 is the
smallest virtual fd not currently allocated — the claim's "smallest"
is false under interleavings with `allocate_at`; and `allocate_at` at
`i32::MAX` overflows the `i32` bump `vfd + 1` (fdtable.rs line 191),
wrapping `next_vfd` to `i32::MIN`, so the next `allocate` returns the
negative fd -2147483648 — the claim's "≥ 3" is false there as well. -/
theorem C2_counterexample :
    (((FdTableState.new.allocate_at 10 ⟨none, none⟩ 0).2).allocate
        ⟨none, none⟩ 0).map (fun p => p.1) = some 11 ∧
    (3 : Int) ∉ keysOf ((FdTableState.new.allocate_at 10
        ⟨none, none⟩ 0).2).entries ∧
    (((FdTableState.new.allocate_at 2147483647 ⟨none, none⟩ 0).2).allocate
        ⟨none, none⟩ 0).map (fun p => p.1) = some (-2147483648) := by
  refine ⟨?_, ?_, ?_⟩ <;> decide

/-- C2 (amended): in histories made only of `allocate`/`deallocate`/
`duplicate`, every fd returned by `allocate` is `≥ 3`, not currently
allocated, and the smallest such fd.  (No part of this survives
arbitrary interleavings: `allocate_at` can jump `next_vfd` past
unallocated fds, and at `vfd = i32::MAX` it wraps `next_vfd` to
`i32::MIN`, after which `allocate` returns a negative fd.) -/
theorem C2_allocate_lowest (s : FdTableState) (fo : FileOpsM)
    (fl v w : Int) (s' : FdTableState)
    (hs : ReachableAD s)
    (h : s.allocate fo fl = some (v, s'))
    (hw3 : FIRST_USER_FD ≤ w) (hwk : w ∉ keysOf s.entries) :
    FIRST_USER_FD ≤ v ∧ v ∉ keysOf s.entries ∧ v ≤ w := by
  obtain ⟨a1, a2, a3⟩ := allocate_lowest (reachableAD_inv hs) h
  exact ⟨a1, a2, a3 w hw3 hwk⟩

theorem C2_witness :
    FIRST_USER_FD ≤ 3 ∧ (3 : Int) ∉ keysOf FdTableState.new.entries ∧
      (3 : Int) ≤ 7 :=
  C2_allocate_lowest FdTableState.new ⟨none, none⟩ 0 3 7
    ⟨[ (3, ⟨⟨none, none⟩, 0⟩), (0, ⟨⟨some 0, none⟩, 0⟩)
     , (1, ⟨⟨some 1, none⟩, 0⟩), (2, ⟨⟨some 2, none⟩, 0⟩)], 4, []⟩
    ReachableAD.init (by decide) (by decide) (by decide)

/-- C9: in every table reachable by any interleaving of the fd-table
operations, no virtual fd is both allocated and on the free heap, the
free heap holds only fds `≥ 3`, and `deallocate` of an absent vfd
returns `none` and leaves the table unchanged (so a double close cannot
enqueue a duplicate free fd). -/
theorem C9_fdtable_invariant (s : FdTableState) (vfd : Int)
    (hs : Reachable s) :
    (vfd ∈ s.free_fds → vfd ∉ keysOf s.entries) ∧
    (vfd ∈ s.free_fds → FIRST_USER_FD ≤ vfd) ∧
    (vfd ∉ keysOf s.entries → s.deallocate vfd = (none, s)) := by
  have hinv := reachable_invCore hs
  refine ⟨fun h => hinv.2.2.1 vfd h, fun h => hinv.2.1 vfd h, fun h => ?_⟩
  unfold FdTableState.deallocate
  rw [lookupEntry_eq_none.mpr h]

theorem C9_witness :
    ((5 : Int) ∈ FdTableState.new.free_fds →
      (5 : Int) ∉ keysOf FdTableState.new.entries) ∧
    ((5 : Int) ∈ FdTableState.new.free_fds → FIRST_USER_FD ≤ 5) ∧
    ((5 : Int) ∉ keysOf FdTableState.new.entries →
      FdTableState.new.deallocate 5 = (none, FdTableState.new)) :=
  C9_fdtable_invariant FdTableState.new 5 Reachable.init

/-- C4: the virtual branches of `handle_openat`, `handle_read` and
`handle_write` all return the spec's errno mapping to the guest:
`NotFound → -ENOENT` (-2), `PermissionDenied → -EACCES` (-13), and
every other variant (`InvalidInput`, `IoError`, `Other`) `→ -EIO_errno`
(-5); the openat handler leaves the fd table unchanged on error. -/
theorem C4_errno_mapping (e : VfsError) (s : FdTableState) (fl : Int)
    (msg : String) :
    handle_openat_virtual s (Except.error e) fl =
      some (specErrnoMapping e, s) ∧
    handle_read_virtual (Except.error e) = specErrnoMapping e ∧
    handle_write_virtual (Except.error e) = specErrnoMapping e ∧
    specErrnoMapping VfsError.NotFound = -2 ∧
    specErrnoMapping VfsError.PermissionDenied = -13 ∧
    specErrnoMapping (VfsError.InvalidInput msg) = -5 ∧
    specErrnoMapping (VfsError.IoError msg) = -5 ∧
    specErrnoMapping (VfsError.Other msg) = -5 := by
  refine ⟨?_, ?_, ?_, rfl, rfl, rfl, rfl, rfl⟩ <;>
    cases e <;>
      simp [handle_openat_virtual, handle_read_virtual,
        handle_write_virtual, openatVirtualErrno, readVirtualErrno,
        writeVirtualErrno, specErrnoMapping, ENOENT, EACCES, EIO_errno]

/-- C8: closing a virtual fd (entry without a kernel fd) removes the
entry from the table, invokes the file object's `close`, and returns 0
to the guest — whatever close error the file object would report and
whatever the (unused) kernel close return is. -/
theorem C8_virtual_close (s : FdTableState) (vfd kr : Int) (e : FdEntry)
    (hget : s.get vfd = some e) (hvirt : e.kernel_fd = none) :
    handle_close s vfd kr =
      some (0,
        { entries := removeEntry vfd s.entries
          next_vfd := s.next_vfd
          free_fds := if FIRST_USER_FD ≤ vfd then vfd :: s.free_fds
                      else s.free_fds },
        [e.file_ops]) ∧
    lookupEntry vfd (removeEntry vfd s.entries) = none := by
  have hl : lookupEntry vfd s.entries = some e := hget
  constructor
  · simp [handle_close, FdTableState.deallocate, hl, hvirt]
  · refine lookupEntry_eq_none.mpr ?_
    intro hmem
    exact (mem_keysOf_removeEntry.mp hmem).2 rfl

theorem C8_witness :
    handle_close ⟨[(3, ⟨⟨none, some (VfsError.Other "boom")⟩, 5⟩)], 4, []⟩
        3 (-1) =
      some (0,
        { entries := removeEntry 3
            [(3, ⟨⟨none, some (VfsError.Other "boom")⟩, 5⟩)]
          next_vfd := 4
          free_fds := if FIRST_USER_FD ≤ (3 : Int) then [3] else [] },
        [⟨none, some (VfsError.Other "boom")⟩]) ∧
    lookupEntry 3 (removeEntry 3
      [(3, ⟨⟨none, some (VfsError.Other "boom")⟩, 5⟩)]) = none :=
  C8_virtual_close ⟨[(3, ⟨⟨none, some (VfsError.Other "boom")⟩, 5⟩)], 4, []⟩
    3 (-1) ⟨⟨none, some (VfsError.Other "boom")⟩, 5⟩ rfl rfl

end AgentFs

namespace AgentFs

theorem removeEntry_insertEntry_self {l : List (Int × FdEntry)} {k : Int}
    {v : FdEntry} (h : k ∉ keysOf l) :
    removeEntry k (insertEntry k v l) = l := by
  unfold removeEntry insertEntry
  rw [List.filter_cons_of_neg (by simp)]
  rw [filter_ne_eq_self h, filter_ne_eq_self h]

/-- C10 (counterexample): first conjunct — concrete run in which the
kernel `dup` fails: the speculatively allocated vfd came from
`next_vfd`, and after the cleanup `next_vfd` stays advanced with the fd
pushed onto the free heap, so the table is *not* literally "in the same
state as before the dup call" (the fd→entry map is, but the internal
counters are not).  Second conjunct — after `dup2`-driven `allocate_at`
calls at `i32::MIN` and then at `i32::MAX` (which wraps `next_vfd` onto
the occupied fd `i32::MIN`), a failing `handle_dup` does not even
restore the fd→entry map: the speculative allocate overwrites the
entry at `i32::MIN` and the cleanup deletes it. -/
theorem C10_counterexample :
    ((FdTableState.new.allocate ⟨some 100, none⟩ 0).bind
      (fun p => (handle_dup p.2 3 (-9)).map
        (fun q => (q.1, decide (q.2 = p.2))))) = some (-9, false) ∧
    ((handle_dup
        ((((FdTableState.new.allocate_at (-2147483648)
              ⟨none, none⟩ 7).2).allocate_at
            2147483647 ⟨some 100, none⟩ 0).2)
        2147483647 (-9)).map
      (fun q => decide (q.2.entries =
        ((((FdTableState.new.allocate_at (-2147483648)
              ⟨none, none⟩ 7).2).allocate_at
            2147483647 ⟨some 100, none⟩ 0).2).entries))) = some false := by
  refine ⟨?_, ?_⟩ <;> decide

/-- C10 (amended): when the old vfd is passthrough, the injected
kernel `dup` returns a negative value, and the next-fd counter is not
sitting on an allocated fd (that last condition can only fail after a
`dup2`-driven `allocate_at` at `i32::MAX` has wrapped `next_vfd` onto
an occupied fd — the second conjunct of the counterexample),
`handle_dup` deallocates the speculatively allocated vfd before
returning the kernel error, so the fd→entry map is exactly the one
from before the call (only the internal next-fd counter and free heap
may differ). -/
theorem C10_dup_failure_cleanup (s : FdTableState) (old kr nv k : Int)
    (e : FdEntry) (s₁ : FdTableState)
    (hreach : Reachable s)
    (hnext : s.next_vfd ∉ keysOf s.entries)
    (hget : s.get old = some e)
    (hpass : e.kernel_fd = some k)
    (hdup : s.duplicate old = some (nv, s₁))
    (hkr : kr < 0) :
    handle_dup s old kr = some (kr, (s₁.deallocate nv).2) ∧
    ((s₁.deallocate nv).2).entries = s.entries := by
  have hinv := reachable_invCore hreach
  have halloc : s.allocate e.file_ops e.flags = some (nv, s₁) := by
    unfold FdTableState.duplicate at hdup
    rw [hget] at hdup
    exact hdup
  obtain ⟨_, hent, hfresh⟩ := allocate_core hinv halloc
  have hnk : nv ∉ keysOf s.entries := hfresh hnext
  have hne : old ≠ nv := by
    intro hh
    exact hnk (hh ▸ lookupEntry_mem hget)
  have hlook : lookupEntry old s₁.entries = some e := by
    rw [hent, lookupEntry_insertEntry_ne hne]
    exact hget
  have htrans : s₁.translate old = some k := by
    unfold FdTableState.translate
    rw [hlook]
    simpa using hpass
  refine ⟨?_, ?_⟩
  · simp only [handle_dup, hdup, htrans, if_pos hkr]
  · have hlooknv : lookupEntry nv s₁.entries =
        some ⟨e.file_ops, e.flags⟩ := by
      rw [hent]; exact lookupEntry_insertEntry_self
    unfold FdTableState.deallocate
    rw [hlooknv]
    show removeEntry nv s₁.entries = s.entries
    rw [hent]
    exact removeEntry_insertEntry_self hnk

theorem C10_witness :
    handle_dup
        ⟨[ (3, ⟨⟨some 100, none⟩, 0⟩), (0, ⟨⟨some 0, none⟩, 0⟩)
         , (1, ⟨⟨some 1, none⟩, 0⟩), (2, ⟨⟨some 2, none⟩, 0⟩)], 4, []⟩
        3 (-9) =
      some (-9,
        ((⟨[ (4, ⟨⟨some 100, none⟩, 0⟩), (3, ⟨⟨some 100, none⟩, 0⟩)
           , (0, ⟨⟨some 0, none⟩, 0⟩), (1, ⟨⟨some 1, none⟩, 0⟩)
           , (2, ⟨⟨some 2, none⟩, 0⟩)], 5, []⟩ : FdTableState).deallocate
          4).2) ∧
    (((⟨[ (4, ⟨⟨some 100, none⟩, 0⟩), (3, ⟨⟨some 100, none⟩, 0⟩)
        , (0, ⟨⟨some 0, none⟩, 0⟩), (1, ⟨⟨some 1, none⟩, 0⟩)
        , (2, ⟨⟨some 2, none⟩, 0⟩)], 5, []⟩ : FdTableState).deallocate
        4).2).entries =
      ([ (3, ⟨⟨some 100, none⟩, 0⟩), (0, ⟨⟨some 0, none⟩, 0⟩)
       , (1, ⟨⟨some 1, none⟩, 0⟩), (2, ⟨⟨some 2, none⟩, 0⟩)] :
        List (Int × FdEntry)) :=
  C10_dup_failure_cleanup
    ⟨[ (3, ⟨⟨some 100, none⟩, 0⟩), (0, ⟨⟨some 0, none⟩, 0⟩)
     , (1, ⟨⟨some 1, none⟩, 0⟩), (2, ⟨⟨some 2, none⟩, 0⟩)], 4, []⟩
    3 (-9) 4 100 ⟨⟨some 100, none⟩, 0⟩
    ⟨[ (4, ⟨⟨some 100, none⟩, 0⟩), (3, ⟨⟨some 100, none⟩, 0⟩)
     , (0, ⟨⟨some 0, none⟩, 0⟩), (1, ⟨⟨some 1, none⟩, 0⟩)
     , (2, ⟨⟨some 2, none⟩, 0⟩)], 5, []⟩
    (@Reachable.alloc FdTableState.new 3
      ⟨[ (3, ⟨⟨some 100, none⟩, 0⟩), (0, ⟨⟨some 0, none⟩, 0⟩)
       , (1, ⟨⟨some 1, none⟩, 0⟩), (2, ⟨⟨some 2, none⟩, 0⟩)], 4, []⟩
      ⟨some 100, none⟩ 0 Reachable.init (by decide))
    (by decide) rfl rfl (by decide) (by decide)

end AgentFs

namespace CloneModel

open AgentFs

theorem find_map_update (l : List (Nat × FdTableState)) (id j : Nat)
    (f : FdTableState → FdTableState) :
    ((l.map (fun p => if p.1 = id then (p.1, f p.2) else p)).find?
        (fun p => p.1 = j)).map (fun p => p.2) =
      if j = id then
        ((l.find? (fun p => p.1 = j)).map (fun p => p.2)).map f
      else (l.find? (fun p => p.1 = j)).map (fun p => p.2) := by
  induction l with
  | nil => simp [List.find?]
  | cons p ps ih =>
      by_cases hpi : p.1 = id
      · by_cases hpj : p.1 = j
        · have hji : j = id := by rw [← hpj, hpi]
          rw [List.map_cons, if_pos hpi,
            List.find?_cons_of_pos _ (by simpa using hpj),
            List.find?_cons_of_pos _ (by simpa using hpj), if_pos hji]
          simp
        · have hji : ¬(j = id) → True := fun _ => trivial
          rw [List.map_cons, if_pos hpi,
            List.find?_cons_of_neg _ (by simpa using hpj),
            List.find?_cons_of_neg _ (by simpa using hpj), ih]
      · by_cases hpj : p.1 = j
        · have hji : j ≠ id := by rw [← hpj]; exact hpi
          rw [List.map_cons, if_neg hpi,
            List.find?_cons_of_pos _ (by simpa using hpj),
            List.find?_cons_of_pos _ (by simpa using hpj), if_neg hji]
        · rw [List.map_cons, if_neg hpi,
            List.find?_cons_of_neg _ (by simpa using hpj),
            List.find?_cons_of_neg _ (by simpa using hpj), ih]

theorem heapGet_updateTable (w : SandboxWorld) (id j : Nat)
    (f : FdTableState → FdTableState) :
    heapGet (updateTable w id f) j =
      if j = id then (heapGet w j).map f else heapGet w j := by
  unfold heapGet updateTable
  exact find_map_update w.tables id j f

theorem heapGet_mem_keys {w : SandboxWorld} {id : Nat} {t : FdTableState}
    (h : heapGet w id = some t) : id ∈ w.tables.map (fun p => p.1) := by
  unfold heapGet at h
  rcases Option.map_eq_some'.mp h with ⟨⟨p1, p2⟩, hp, hpe⟩
  have h1 : p1 = id := by simpa using List.find?_some hp
  have h2 := List.mem_of_find?_eq_some hp
  exact List.mem_map.mpr ⟨(p1, p2), h2, h1⟩

theorem regLookup_insert_self (w : SandboxWorld) (pid : Int) (id : Nat) :
    regLookup (insert_fd_table w pid id) pid = some id := by
  simp [regLookup, insert_fd_table, List.find?_cons]

/-- C5: after a successful `clone` with the `CLONE_FILES` bit (0x400)
set, the child pid is registered with the parent's own table reference,
so a modification through either reference is observed identically by
both; after `clone` without the bit — and after `fork`, `vfork` and
`clone3` — the child is registered with a deep copy (initially equal to
the parent's table), and a modification through one reference is
invisible through the other. -/
theorem C5_clone_fd_tables (w : SandboxWorld) (parentRef : Nat)
    (childPid flags : Int) (pt : FdTableState)
    (f : FdTableState → FdTableState)
    (hfresh : freshOk w = true)
    (hpt : heapGet w parentRef = some pt)
    (hchild : 0 < childPid) :
    (Int.land flags CLONE_FILES ≠ 0 →
      handle_clone_reg w parentRef childPid flags =
        some (insert_fd_table w childPid parentRef) ∧
      regLookup (insert_fd_table w childPid parentRef) childPid =
        some parentRef ∧
      viewOfPid (updateTable (insert_fd_table w childPid parentRef)
        parentRef f) childPid = some (f pt) ∧
      heapGet (updateTable (insert_fd_table w childPid parentRef)
        parentRef f) parentRef = some (f pt)) ∧
    (Int.land flags CLONE_FILES = 0 →
      handle_clone_reg w parentRef childPid flags =
        some (insert_fd_table
          { w with tables := (w.fresh, pt) :: w.tables
                   fresh := w.fresh + 1 } childPid w.fresh) ∧
      viewOfPid (insert_fd_table
          { w with tables := (w.fresh, pt) :: w.tables
                   fresh := w.fresh + 1 } childPid w.fresh) childPid =
        some pt ∧
      heapGet (updateTable (insert_fd_table
          { w with tables := (w.fresh, pt) :: w.tables
                   fresh := w.fresh + 1 } childPid w.fresh) w.fresh f)
        parentRef = some pt ∧
      viewOfPid (updateTable (insert_fd_table
          { w with tables := (w.fresh, pt) :: w.tables
                   fresh := w.fresh + 1 } childPid w.fresh) parentRef f)
        childPid = some pt ∧
      heapGet (updateTable (insert_fd_table
          { w with tables := (w.fresh, pt) :: w.tables
                   fresh := w.fresh + 1 } childPid w.fresh) w.fresh f)
        w.fresh = some (f pt)) ∧
    handle_fork_reg w parentRef childPid =
      some (insert_fd_table
        { w with tables := (w.fresh, pt) :: w.tables
                 fresh := w.fresh + 1 } childPid w.fresh) ∧
    handle_vfork_reg w parentRef childPid =
      some (insert_fd_table
        { w with tables := (w.fresh, pt) :: w.tables
                 fresh := w.fresh + 1 } childPid w.fresh) ∧
    handle_clone3_reg w parentRef childPid =
      some (insert_fd_table
        { w with tables := (w.fresh, pt) :: w.tables
                 fresh := w.fresh + 1 } childPid w.fresh) := by
  have hne : parentRef ≠ w.fresh := by
    have hmem := heapGet_mem_keys hpt
    have := List.all_eq_true.mp hfresh
    rcases List.mem_map.mp hmem with ⟨p, hp, hpe⟩
    have := this p hp
    have hlt : p.1 < w.fresh := by simpa using this
    omega
  have hheapins : ∀ (pid : Int) (id : Nat) (w' : SandboxWorld) (j : Nat),
      heapGet (insert_fd_table w' pid id) j = heapGet w' j := by
    intro pid id w' j
    simp [heapGet, insert_fd_table]
  have hheapcons : heapGet
      { w with tables := (w.fresh, pt) :: w.tables
               fresh := w.fresh + 1 } parentRef = some pt := by
    unfold heapGet
    rw [List.find?_cons_of_neg _ (by simpa using fun hh => hne hh.symm)]
    exact hpt
  have hheapconsF : heapGet
      { w with tables := (w.fresh, pt) :: w.tables
               fresh := w.fresh + 1 } w.fresh = some pt := by
    unfold heapGet
    rw [List.find?_cons_of_pos _ (by simp)]
    rfl
  refine ⟨?_, ?_, ?_, ?_, ?_⟩
  · intro hbit
    refine ⟨?_, regLookup_insert_self w childPid parentRef, ?_, ?_⟩
    · unfold handle_clone_reg
      rw [if_pos hchild, if_pos hbit]
    · unfold viewOfPid
      rw [show regLookup (updateTable (insert_fd_table w childPid parentRef)
          parentRef f) childPid =
        regLookup (insert_fd_table w childPid parentRef) childPid from rfl]
      rw [regLookup_insert_self]
      show heapGet (updateTable (insert_fd_table w childPid parentRef)
        parentRef f) parentRef = some (f pt)
      rw [heapGet_updateTable, if_pos rfl, hheapins, hpt]
      rfl
    · rw [heapGet_updateTable, if_pos rfl, hheapins, hpt]
      rfl
  · intro hbit
    refine ⟨?_, ?_, ?_, ?_, ?_⟩
    · simp only [handle_clone_reg, if_pos hchild, deep_clone, hpt,
        if_neg (show ¬Int.land flags CLONE_FILES ≠ 0 by simp [hbit])]
    · unfold viewOfPid
      rw [regLookup_insert_self]
      show heapGet _ w.fresh = some pt
      rw [hheapins]
      exact hheapconsF
    · rw [heapGet_updateTable, if_neg (fun hh => hne hh), hheapins]
      exact hheapcons
    · unfold viewOfPid
      rw [show regLookup (updateTable (insert_fd_table
          { w with tables := (w.fresh, pt) :: w.tables
                   fresh := w.fresh + 1 } childPid w.fresh) parentRef f)
          childPid =
        regLookup (insert_fd_table
          { w with tables := (w.fresh, pt) :: w.tables
                   fresh := w.fresh + 1 } childPid w.fresh) childPid from
        rfl]
      rw [regLookup_insert_self]
      show heapGet _ w.fresh = some pt
      rw [heapGet_updateTable, if_neg (fun hh => hne hh.symm), hheapins]
      exact hheapconsF
    · rw [heapGet_updateTable, if_pos rfl, hheapins, hheapconsF]
      rfl
  · simp only [handle_fork_reg, if_pos hchild, deep_clone, hpt]
  · simp only [handle_vfork_reg, if_pos hchild, deep_clone, hpt]
  · simp only [handle_clone3_reg, if_pos hchild, deep_clone, hpt]

end CloneModel

namespace CloneModel

open AgentFs

theorem C5_witness :
    regLookup (insert_fd_table ⟨[(0, FdTableState.new)], [(1, 0)], 1⟩ 2 0)
      2 = some 0 ∧
    viewOfPid (updateTable
      (insert_fd_table ⟨[(0, FdTableState.new)], [(1, 0)], 1⟩ 2 0)
      0 bumpNext) 2 = some (bumpNext FdTableState.new) ∧
    viewOfPid (updateTable
      (insert_fd_table ⟨[(1, FdTableState.new), (0, FdTableState.new)],
        [(1, 0)], 2⟩ 2 1) 0 bumpNext) 2 = some FdTableState.new :=
  ⟨((C5_clone_fd_tables ⟨[(0, FdTableState.new)], [(1, 0)], 1⟩ 0 2 1024
      FdTableState.new bumpNext (by decide) (by decide) (by decide)).1
      (by decide)).2.1,
   ((C5_clone_fd_tables ⟨[(0, FdTableState.new)], [(1, 0)], 1⟩ 0 2 1024
      FdTableState.new bumpNext (by decide) (by decide) (by decide)).1
      (by decide)).2.2.1,
   ((C5_clone_fd_tables ⟨[(0, FdTableState.new)], [(1, 0)], 1⟩ 0 2 0
      FdTableState.new bumpNext (by decide) (by decide) (by decide)).2.1
      (by decide)).2.2.2.1⟩

end CloneModel

namespace MountModel

instance : IsTotal MountPoint depthGE :=
  ⟨fun a b => le_total (componentsCount b.sandbox_path)
    (componentsCount a.sandbox_path)⟩

instance : IsTrans MountPoint depthGE :=
  ⟨fun _ _ _ hab hbc => le_trans hbc hab⟩

theorem buildTable_sorted (specs : List MountPoint) :
    List.Pairwise depthGE (buildTable specs).mounts := by
  have aux : ∀ (l : List MountPoint) (t : MountTable),
      List.Pairwise depthGE t.mounts →
      List.Pairwise depthGE ((l.foldl MountTable.add_mount t).mounts) := by
    intro l
    induction l with
    | nil => intro t ht; exact ht
    | cons a rest ih =>
        intro t ht
        apply ih
        exact List.sorted_insertionSort depthGE (t.mounts ++ [a])
  exact aux specs MountTable.new (by simp [MountTable.new])

theorem find_accepts_max {l : List MountPoint} {p : List String}
    {m : MountPoint} (hsort : List.Pairwise depthGE l)
    (hfind : l.find? (fun mp => acceptsPath mp.sandbox_path p) = some m) :
    acceptsPath m.sandbox_path p = true ∧
    ∀ m' ∈ l, acceptsPath m'.sandbox_path p = true →
      componentsCount m'.sandbox_path ≤ componentsCount m.sandbox_path := by
  induction l with
  | nil => exact absurd hfind (by simp)
  | cons a l ih =>
      rcases List.pairwise_cons.mp hsort with ⟨ha, hl⟩
      by_cases hacc : acceptsPath a.sandbox_path p = true
      · rw [List.find?_cons_of_pos _ (by simpa using hacc)] at hfind
        have hma : a = m := by injection hfind
        subst hma
        refine ⟨hacc, ?_⟩
        intro m' hm' _
        rcases List.mem_cons.mp hm' with hh | hh
        · subst hh; exact le_refl _
        · exact ha m' hh
      · rw [List.find?_cons_of_neg _ (by simpa using hacc)] at hfind
        obtain ⟨hm, hmax⟩ := ih hl hfind
        refine ⟨hm, ?_⟩
        intro m' hm' hacc'
        rcases List.mem_cons.mp hm' with hh | hh
        · subst hh; exact absurd hacc' hacc
        · exact hmax m' hh hacc'

/-- C1: for a mount table built by any sequence of `add_mount` calls
and any guest path `p`, `resolve p` returns the first mount in
component-count-descending order whose `translate_path` accepts `p`;
that mount's sandbox path has maximal length among accepting mounts and
extends every other accepting mount's sandbox path (acceptance is the
component-boundary prefix test, so `/agentfoo` does not match an
`/agent` mount); when no mount accepts, `resolve` returns `none`,
and whenever some mount accepts it does not. -/
theorem C1_mount_resolution (specs : List MountPoint) (p : List String)
    (m m' : MountPoint) :
    ((buildTable specs).resolve p = some m →
      acceptsPath m.sandbox_path p = true ∧
      m ∈ (buildTable specs).mounts) ∧
    ((buildTable specs).resolve p = some m →
      m' ∈ (buildTable specs).mounts →
      acceptsPath m'.sandbox_path p = true →
      m'.sandbox_path.length ≤ m.sandbox_path.length ∧
      List.isPrefixOf m'.sandbox_path m.sandbox_path = true) ∧
    ((buildTable specs).resolve p = none →
      m' ∈ (buildTable specs).mounts →
      acceptsPath m'.sandbox_path p = false) := by
  have hsort := buildTable_sorted specs
  refine ⟨?_, ?_, ?_⟩
  · intro hres
    exact ⟨(find_accepts_max hsort hres).1,
      List.mem_of_find?_eq_some hres⟩
  · intro hres hmem hacc'
    obtain ⟨hm, hmax⟩ := find_accepts_max hsort hres
    have hcount := hmax m' hmem hacc'
    have hlen : m'.sandbox_path.length ≤ m.sandbox_path.length := by
      unfold componentsCount at hcount
      omega
    refine ⟨hlen, ?_⟩
    have hpm : m.sandbox_path <+: p :=
      List.isPrefixOf_iff_prefix.mp hm
    have hpm' : m'.sandbox_path <+: p :=
      List.isPrefixOf_iff_prefix.mp hacc'
    exact List.isPrefixOf_iff_prefix.mpr
      (List.prefix_of_prefix_length_le hpm' hpm hlen)
  · intro hres hmem
    have := List.find?_eq_none.mp hres m' hmem
    simpa using this

theorem C1_witness :
    (acceptsPath (["agent", "special"] : List String)
      ["agent", "special", "x"] = true ∧
      (⟨["agent", "special"], 1⟩ : MountPoint) ∈
        (buildTable [⟨["agent"], 0⟩, ⟨["agent", "special"], 1⟩]).mounts) ∧
    ((["agent"] : List String).length ≤
      (["agent", "special"] : List String).length ∧
      List.isPrefixOf (["agent"] : List String) ["agent", "special"] =
        true) ∧
    acceptsPath (["agent"] : List String) ["other", "y"] = false :=
  ⟨(C1_mount_resolution [⟨["agent"], 0⟩, ⟨["agent", "special"], 1⟩]
      ["agent", "special", "x"] ⟨["agent", "special"], 1⟩ ⟨["agent"], 0⟩).1
      (by decide),
   (C1_mount_resolution [⟨["agent"], 0⟩, ⟨["agent", "special"], 1⟩]
      ["agent", "special", "x"] ⟨["agent", "special"], 1⟩ ⟨["agent"], 0⟩).2.1
      (by decide) (by decide) (by decide),
   (C1_mount_resolution [⟨["agent"], 0⟩, ⟨["agent", "special"], 1⟩]
      ["other", "y"] ⟨["agent", "special"], 1⟩ ⟨["agent"], 0⟩).2.2
      (by decide) (by decide)⟩

end MountModel

namespace PosixFs

theorem writeLoop_nil (cs : List Chunk) (o : Int) :
    writeLoop cs o [] = cs := by
  simp [writeLoop]

theorem writeLoop_cons (cs : List Chunk) (o : Int) (x : Nat)
    (xs : List Nat) :
    writeLoop cs o (x :: xs) =
      writeLoop
        ((cs.filter (fun c => c.off ≠ o)) ++
          [⟨ o, ((min CHUNK_SIZE (x :: xs).length : Nat) : Int)
           , (x :: xs).take (min CHUNK_SIZE (x :: xs).length)⟩])
        (o + ((min CHUNK_SIZE (x :: xs).length : Nat) : Int))
        ((x :: xs).drop (min CHUNK_SIZE (x :: xs).length)) := by
  rw [writeLoop]

theorem mkChunks_nil (o : Int) : mkChunks o [] = [] := by
  simp [mkChunks]

theorem mkChunks_cons (o : Int) (x : Nat) (xs : List Nat) :
    mkChunks o (x :: xs) =
      ⟨ o, ((min CHUNK_SIZE (x :: xs).length : Nat) : Int)
      , (x :: xs).take (min CHUNK_SIZE (x :: xs).length)⟩ ::
        mkChunks (o + ((min CHUNK_SIZE (x :: xs).length : Nat) : Int))
          ((x :: xs).drop (min CHUNK_SIZE (x :: xs).length)) := by
  rw [mkChunks]

theorem writeLoop_eq_mkChunks_aux (n : Nat) :
    ∀ (b : List Nat), b.length ≤ n → ∀ (cs : List Chunk) (o : Int),
      (∀ c ∈ cs, c.off < o) → writeLoop cs o b = cs ++ mkChunks o b := by
  induction n with
  | zero =>
      intro b hb cs o _
      have : b = [] := List.eq_nil_of_length_eq_zero (by omega)
      subst this
      simp [writeLoop_nil, mkChunks_nil]
  | succ n ih =>
      intro b hb cs o hcs
      cases b with
      | nil => simp [writeLoop_nil, mkChunks_nil]
      | cons x xs =>
          rw [writeLoop_cons, mkChunks_cons]
          have hfil : cs.filter (fun c => c.off ≠ o) = cs := by
            refine List.filter_eq_self.mpr ?_
            intro c hc
            have := hcs c hc
            simp only [ne_eq, decide_eq_true_eq]
            omega
          rw [hfil]
          have hmin1 : 1 ≤ min CHUNK_SIZE (x :: xs).length := by
            simp only [CHUNK_SIZE, List.length_cons]
            omega
          have hlen : ((x :: xs).drop
              (min CHUNK_SIZE (x :: xs).length)).length ≤ n := by
            simp only [List.length_drop, List.length_cons] at *
            omega
          have hmem : ∀ c ∈ cs ++
              [(⟨ o, ((min CHUNK_SIZE (x :: xs).length : Nat) : Int)
                , (x :: xs).take (min CHUNK_SIZE (x :: xs).length)⟩ :
                Chunk)],
              c.off < o + ((min CHUNK_SIZE (x :: xs).length : Nat) : Int) := by
            intro c hc
            rcases List.mem_append.mp hc with hh | hh
            · have := hcs c hh
              omega
            · have hceq : c = ⟨ o,
                  ((min CHUNK_SIZE (x :: xs).length : Nat) : Int)
                , (x :: xs).take (min CHUNK_SIZE (x :: xs).length)⟩ := by
                simpa using hh
              subst hceq
              simp only
              omega
          rw [ih _ hlen _ _ hmem]
          simp

theorem writeLoop_eq_mkChunks (b : List Nat) (o : Int) :
    writeLoop [] o b = mkChunks o b := by
  have := writeLoop_eq_mkChunks_aux b.length b (le_refl _) [] o
    (by intro c hc; exact absurd hc (List.not_mem_nil c))
  simpa using this

theorem mkChunks_bounds_aux (n : Nat) :
    ∀ (b : List Nat), b.length ≤ n → ∀ (o : Int) (c : Chunk),
      c ∈ mkChunks o b →
      o ≤ c.off ∧ c.off + (c.data.length : Int) ≤ o + b.length ∧
        c.size = (c.data.length : Int) ∧ 1 ≤ c.data.length := by
  induction n with
  | zero =>
      intro b hb o c hc
      have : b = [] := List.eq_nil_of_length_eq_zero (by omega)
      subst this
      rw [mkChunks_nil] at hc
      exact absurd hc (List.not_mem_nil c)
  | succ n ih =>
      intro b hb o c hc
      cases b with
      | nil =>
          rw [mkChunks_nil] at hc
          exact absurd hc (List.not_mem_nil c)
      | cons x xs =>
          rw [mkChunks_cons] at hc
          have hmin1 : 1 ≤ min CHUNK_SIZE (x :: xs).length := by
            simp only [CHUNK_SIZE, List.length_cons]
            omega
          have htk : ((x :: xs).take
              (min CHUNK_SIZE (x :: xs).length)).length =
              min CHUNK_SIZE (x :: xs).length := by
            simp only [List.length_take]
            omega
          rcases List.mem_cons.mp hc with hh | hh
          · subst hh
            refine ⟨le_refl _, ?_, ?_, ?_⟩
            · show o + ((((x :: xs).take
                  (min CHUNK_SIZE (x :: xs).length)).length : Nat) : Int) ≤
                o + ((x :: xs).length : Int)
              rw [htk]
              have hle : min CHUNK_SIZE (x :: xs).length ≤
                  (x :: xs).length := min_le_right _ _
              push_cast
              omega
            · show ((min CHUNK_SIZE (x :: xs).length : Nat) : Int) =
                (((x :: xs).take
                  (min CHUNK_SIZE (x :: xs).length)).length : Int)
              rw [htk]
            · show 1 ≤ ((x :: xs).take
                (min CHUNK_SIZE (x :: xs).length)).length
              rw [htk]
              exact hmin1
          · have hlen : ((x :: xs).drop
                (min CHUNK_SIZE (x :: xs).length)).length ≤ n := by
              simp only [List.length_drop, List.length_cons] at *
              omega
            obtain ⟨ih1, ih2, ih3, ih4⟩ := ih _ hlen _ c hh
            refine ⟨by omega, ?_, ih3, ih4⟩
            have hdl : ((x :: xs).drop
                (min CHUNK_SIZE (x :: xs).length)).length =
                (x :: xs).length - min CHUNK_SIZE (x :: xs).length := by
              simp [List.length_drop]
            rw [hdl] at ih2
            have hle : min CHUNK_SIZE (x :: xs).length ≤
                (x :: xs).length := min_le_right _ _
            push_cast at ih2 ⊢
            omega

theorem mkChunks_sorted_aux (n : Nat) :
    ∀ (b : List Nat), b.length ≤ n → ∀ (o : Int),
      List.Pairwise (fun c d : Chunk => c.off ≤ d.off) (mkChunks o b) := by
  induction n with
  | zero =>
      intro b hb o
      have : b = [] := List.eq_nil_of_length_eq_zero (by omega)
      subst this
      simp [mkChunks_nil]
  | succ n ih =>
      intro b hb o
      cases b with
      | nil => simp [mkChunks_nil]
      | cons x xs =>
          rw [mkChunks_cons]
          have hmin1 : 1 ≤ min CHUNK_SIZE (x :: xs).length := by
            simp only [CHUNK_SIZE, List.length_cons]
            omega
          have hlen : ((x :: xs).drop
              (min CHUNK_SIZE (x :: xs).length)).length ≤ n := by
            simp only [List.length_drop, List.length_cons] at *
            omega
          refine List.pairwise_cons.mpr ⟨?_, ih _ hlen _⟩
          intro d hd
          have := (mkChunks_bounds_aux _ _ (le_refl _) _ d hd).1
          simp only
          omega

end PosixFs

namespace PosixFs

theorem readStep_chunk (o nn E total : Nat) (buf data : List Nat)
    (hd : data.length = nn) (hnn : 1 ≤ nn) (hoE : o + nn ≤ E)
    (htot : total ≤ o) :
    readStep 0 (E : Int) (buf, total) ⟨(o : Int), (nn : Int), data⟩ =
      (buf.take o ++ data ++ buf.drop (o + nn), o + nn) := by
  unfold readStep
  simp only
  have h1 : max (o : Int) 0 = (o : Int) := by omega
  have h2 : min ((o : Int) + (data.length : Int)) (E : Int) =
      (o : Int) + (nn : Int) := by
    rw [hd]
    omega
  rw [h1, h2]
  rw [if_pos (by omega : (o : Int) < (o : Int) + (nn : Int))]
  have h3 : ((o : Int) - (o : Int)).toNat = 0 := by omega
  have h4 : ((o : Int) - 0).toNat = o := by omega
  have h5 : (((o : Int) + (nn : Int)) - (o : Int)).toNat = nn := by omega
  rw [h3, h4, h5]
  have h6 : data.drop 0 = data := List.drop_zero data
  have h7 : data.take nn = data := by
    rw [← hd]
    exact List.take_length data
  rw [h6, h7]
  have h8 : max total (o + nn) = o + nn := by omega
  rw [h8]

theorem readFold_aux (n : Nat) :
    ∀ (b : List Nat), b.length ≤ n → ∀ (o : Nat) (buf : List Nat)
      (total : Nat) (E : Nat), buf.length = E → o + b.length ≤ E →
      total ≤ o →
      (mkChunks (o : Int) b).foldl (readStep 0 (E : Int)) (buf, total) =
        (buf.take o ++ b ++ buf.drop (o + b.length),
          if b.isEmpty then total else o + b.length) := by
  induction n with
  | zero =>
      intro b hb o buf total E hbuf hoE htot
      have : b = [] := List.eq_nil_of_length_eq_zero (by omega)
      subst this
      rw [mkChunks_nil]
      simp only [List.foldl_nil, List.isEmpty_nil, List.append_nil,
        List.length_nil, Nat.add_zero, if_true]
      rw [List.take_append_drop]
  | succ n ih =>
      intro b hb o buf total E hbuf hoE htot
      cases b with
      | nil =>
          rw [mkChunks_nil]
          simp only [List.foldl_nil, List.isEmpty_nil, List.append_nil,
            List.length_nil, Nat.add_zero, if_true]
          rw [List.take_append_drop]
      | cons x xs =>
          rw [mkChunks_cons, List.foldl_cons]
          have hmin1 : 1 ≤ min CHUNK_SIZE (x :: xs).length := by
            simp only [CHUNK_SIZE, List.length_cons]
            omega
          have hminle : min CHUNK_SIZE (x :: xs).length ≤
              (x :: xs).length := min_le_right _ _
          have htk : ((x :: xs).take
              (min CHUNK_SIZE (x :: xs).length)).length =
              min CHUNK_SIZE (x :: xs).length := by
            rw [List.length_take]
            omega
          have hoE' : o + min CHUNK_SIZE (x :: xs).length ≤ E := by
            omega
          rw [readStep_chunk o (min CHUNK_SIZE (x :: xs).length) E total
            buf _ htk hmin1 hoE' htot]
          have hlen : ((x :: xs).drop
              (min CHUNK_SIZE (x :: xs).length)).length ≤ n := by
            simp only [List.length_drop, List.length_cons] at *
            omega
          have hcast : ((o : Int) + ((min CHUNK_SIZE (x :: xs).length :
              Nat) : Int)) = (((o + min CHUNK_SIZE (x :: xs).length :
              Nat)) : Int) := by
            push_cast
            ring
          rw [hcast]
          have hbuf' : (buf.take o ++ (x :: xs).take
              (min CHUNK_SIZE (x :: xs).length) ++
              buf.drop (o + min CHUNK_SIZE (x :: xs).length)).length =
              E := by
            simp only [List.length_append, List.length_take,
              List.length_drop]
            omega
          have hoE'' : (o + min CHUNK_SIZE (x :: xs).length) +
              ((x :: xs).drop
                (min CHUNK_SIZE (x :: xs).length)).length ≤ E := by
            simp only [List.length_drop, List.length_cons] at *
            omega
          rw [ih _ hlen (o + min CHUNK_SIZE (x :: xs).length) _ _ E
            hbuf' hoE'' (le_refl _)]
          have hA : (buf.take o ++ (x :: xs).take
              (min CHUNK_SIZE (x :: xs).length)).length =
              o + min CHUNK_SIZE (x :: xs).length := by
            simp only [List.length_append, List.length_take]
            omega
          have htake : (buf.take o ++ (x :: xs).take
                (min CHUNK_SIZE (x :: xs).length) ++
                buf.drop (o + min CHUNK_SIZE (x :: xs).length)).take
              (o + min CHUNK_SIZE (x :: xs).length) =
              buf.take o ++ (x :: xs).take
                (min CHUNK_SIZE (x :: xs).length) := by
            exact List.take_left' hA
          have hdrop : ∀ (k : Nat),
              (buf.take o ++ (x :: xs).take
                (min CHUNK_SIZE (x :: xs).length) ++
                buf.drop (o + min CHUNK_SIZE (x :: xs).length)).drop
              (o + min CHUNK_SIZE (x :: xs).length + k) =
              buf.drop (o + min CHUNK_SIZE (x :: xs).length + k) := by
            intro k
            rw [← List.drop_drop k (o + min CHUNK_SIZE (x :: xs).length)
              (buf.take o ++ (x :: xs).take
                (min CHUNK_SIZE (x :: xs).length) ++
                buf.drop (o + min CHUNK_SIZE (x :: xs).length))]
            rw [← List.drop_drop k (o + min CHUNK_SIZE (x :: xs).length)
              buf]
            rw [List.drop_left' hA]
          rw [htake, hdrop]
          have hxlen : ((x :: xs).drop
              (min CHUNK_SIZE (x :: xs).length)).length =
              (x :: xs).length - min CHUNK_SIZE (x :: xs).length := by
            rw [List.length_drop]
          rw [hxlen]
          have harith : o + min CHUNK_SIZE (x :: xs).length +
              ((x :: xs).length - min CHUNK_SIZE (x :: xs).length) =
              o + (x :: xs).length := by
            omega
          rw [harith]
          rw [Prod.mk.injEq]
          refine ⟨?_, ?_⟩
          · rw [List.append_assoc (buf.take o), List.take_append_drop]
          · have hne : ((x :: xs).isEmpty) = false := rfl
            rw [hne]
            by_cases hxe : ((x :: xs).drop
                (min CHUNK_SIZE (x :: xs).length)).isEmpty = true
            · rw [if_pos hxe]
              have := List.isEmpty_iff.mp hxe
              have hl0 : (x :: xs).length -
                  min CHUNK_SIZE (x :: xs).length = 0 := by
                have := congrArg List.length this
                simp only [List.length_drop, List.length_nil] at this
                exact this
              simp only [Bool.false_eq_true, if_false]
              omega
            · rw [if_neg hxe]
              simp only [Bool.false_eq_true, if_false]

end PosixFs

namespace PosixFs

theorem readRows_writeLoop (b : List Nat) :
    readRows (writeLoop [] 0 b) 0 (0 + (b.length : Int)) =
      mkChunks 0 b := by
  rw [writeLoop_eq_mkChunks]
  unfold readRows
  have hfil : (mkChunks 0 b).filter
      (fun c => decide (c.off < 0 + (b.length : Int) ∧
        0 < c.off + c.size)) = mkChunks 0 b := by
    refine List.filter_eq_self.mpr ?_
    intro c hc
    obtain ⟨h1, h2, h3, h4⟩ :=
      mkChunks_bounds_aux b.length b (le_refl _) 0 c hc
    simp only [decide_eq_true_eq]
    refine ⟨by omega, by omega⟩
  rw [hfil]
  exact List.Sorted.insertionSort_eq
    (mkChunks_sorted_aux b.length b (le_refl _) 0)

/-- C3: on a fresh SQLite-backed file, a single write of any byte
string `b` at offset 0 reports `|b|` bytes written (chunking `b` into
64 KiB rows, so any `b` longer than 65536 bytes spans several chunks),
`seek(0, SEEK_SET)` succeeds and resets the offset, and a subsequent
read of `|b|` bytes returns exactly `|b|` bytes equal to `b`. -/
theorem C3_write_read_roundtrip (b : List Nat) :
    (SqFile.write ⟨[], 0, 0⟩ b).2 = b.length ∧
    (SqFile.write ⟨[], 0, 0⟩ b).1.seek 0 SEEK_SET =
      Except.ok (0, (⟨writeLoop [] 0 b, (b.length : Int), 0⟩ : SqFile)) ∧
    (SqFile.read ⟨writeLoop [] 0 b, (b.length : Int), 0⟩ b.length).1 =
      (b, b.length) := by
  have hmax : max (0 : Int) (0 + (b.length : Int)) = (b.length : Int) := by
    omega
  refine ⟨rfl, ?_, ?_⟩
  · unfold SqFile.write SqFile.seek
    simp [SEEK_SET, hmax]
  · unfold SqFile.read
    simp only
    rw [readRows_writeLoop]
    have hcast : ((0 : Nat) : Int) = (0 : Int) := rfl
    have hfold := readFold_aux b.length b (le_refl _) 0
      (List.replicate b.length 0) 0 b.length
      (List.length_replicate b.length 0) (by simp) (le_refl _)
    rw [hcast] at hfold
    rw [show (0 : Int) + (b.length : Int) = ((b.length : Nat) : Int) by
      omega]
    rw [hfold]
    simp only [List.take_zero, List.nil_append, Nat.zero_add]
    have hdrop : (List.replicate b.length (0 : Nat)).drop b.length = [] := by
      apply List.drop_eq_nil_of_le
      rw [List.length_replicate]
    rw [hdrop, List.append_nil]
    rw [Prod.mk.injEq]
    refine ⟨rfl, ?_⟩
    cases b with
    | nil => rfl
    | cons x xs => rfl

end PosixFs

namespace Getdents

theorem le64_length (n : Nat) : (le64 n).length = 8 := by
  simp [le64]

theorem le64i_length (i : Int) : (le64i i).length = 8 := by
  simp [le64i, le64_length]

theorem le16_length (n : Nat) : (le16 n).length = 2 := by
  simp [le16]

theorem reclenOf_ge (n : Nat) : 20 + n ≤ reclenOf n := by
  unfold reclenOf
  omega

theorem reclenOf_mod8 (n : Nat) : reclenOf n % 8 = 0 := by
  unfold reclenOf
  omega

theorem rawLen (ino : Nat) (off : Int) (nm : List Nat) (dt : Nat) :
    (le64 ino ++ le64i off ++ le16 (reclenOf nm.length) ++ [dt] ++
      nm ++ [0]).length = 20 + nm.length := by
  simp [le64_length, le64i_length, le16_length]
  omega

theorem padTo8_raw (ino : Nat) (off : Int) (nm : List Nat) (dt : Nat) :
    padTo8 (le64 ino ++ le64i off ++ le16 (reclenOf nm.length) ++ [dt] ++
      nm ++ [0]) = encRec (ino, nm, dt) off := by
  unfold padTo8 encRec
  rw [rawLen]
  have h1 : (8 - (20 + nm.length) % 8) % 8 =
      reclenOf nm.length - (20 + nm.length) := by
    unfold reclenOf
    omega
  rw [h1]

theorem encRec_length (ino : Nat) (off : Int) (nm : List Nat) (dt : Nat) :
    (encRec (ino, nm, dt) off).length = reclenOf nm.length := by
  unfold encRec
  have := reclenOf_ge nm.length
  simp [le64_length, le64i_length, le16_length]
  omega

theorem padTo8_aligned_append (buf raw : List Nat)
    (h : buf.length % 8 = 0) :
    padTo8 (buf ++ raw) = buf ++ padTo8 raw := by
  unfold padTo8
  have h1 : (buf ++ raw).length % 8 = raw.length % 8 := by
    simp only [List.length_append]
    omega
  rw [h1, List.append_assoc]

theorem dentLoop_spec (count : Nat) :
    ∀ (es : List (Nat × List Nat × Nat)) (buf : List Nat) (off : Int),
      buf.length % 8 = 0 →
      dentLoop count es (buf, off) =
        (buf ++ dentsJoin (es.take (fitCount count es buf.length)) off,
          off + fitCount count es buf.length) := by
  intro es
  induction es with
  | nil =>
      intro buf off hbuf
      simp [dentLoop, fitCount, dentsJoin]
  | cons e rest ih =>
      intro buf off hbuf
      obtain ⟨ino, nm, dt⟩ := e
      show dentLoop count ((ino, nm, dt) :: rest) (buf, off) = _
      rw [dentLoop]
      by_cases hfit : buf.length + reclenOf nm.length > count
      · rw [if_pos hfit]
        have hfc : fitCount count ((ino, nm, dt) :: rest) buf.length = 0 := by
          unfold fitCount
          rw [if_pos hfit]
        rw [hfc]
        simp [dentsJoin]
      · rw [if_neg hfit]
        have hraw := padTo8_aligned_append buf
          (le64 ino ++ le64i off ++ le16 (reclenOf nm.length) ++ [dt] ++
            nm ++ [0]) hbuf
        rw [show buf ++ le64 ino ++ le64i off ++ le16 (reclenOf nm.length)
            ++ [dt] ++ nm ++ [0] =
          buf ++ (le64 ino ++ le64i off ++ le16 (reclenOf nm.length) ++
            [dt] ++ nm ++ [0]) by simp [List.append_assoc]]
        rw [hraw, padTo8_raw]
        have hlen2 : (buf ++ encRec (ino, nm, dt) off).length =
            buf.length + reclenOf nm.length := by
          simp [encRec_length]
        have halign : (buf ++ encRec (ino, nm, dt) off).length % 8 = 0 := by
          rw [hlen2]
          have := reclenOf_mod8 nm.length
          omega
        rw [ih _ (off + 1) halign]
        have hfc : fitCount count ((ino, nm, dt) :: rest) buf.length =
            1 + fitCount count rest (buf.length + reclenOf nm.length) := by
          conv_lhs => rw [fitCount]
          simp only [if_neg hfit]
        rw [hfc, hlen2]
        have htake : ((ino, nm, dt) :: rest).take
            (1 + fitCount count rest (buf.length + reclenOf nm.length)) =
            (ino, nm, dt) :: rest.take
              (fitCount count rest (buf.length + reclenOf nm.length)) := by
          rw [show 1 + fitCount count rest
              (buf.length + reclenOf nm.length) =
            fitCount count rest (buf.length + reclenOf nm.length) + 1 by
              omega]
          rfl
        rw [htake]
        rw [show dentsJoin ((ino, nm, dt) :: rest.take
            (fitCount count rest (buf.length + reclenOf nm.length))) off =
          encRec (ino, nm, dt) off ++ dentsJoin (rest.take
            (fitCount count rest (buf.length + reclenOf nm.length)))
            (off + 1) from rfl]
        rw [Prod.mk.injEq]
        refine ⟨by simp [List.append_assoc], by omega⟩

theorem fitCount_sum (count : Nat) :
    ∀ (es : List (Nat × List Nat × Nat)) (acc : Nat), acc ≤ count →
      acc + recSum (es.take (fitCount count es acc)) ≤ count := by
  intro es
  induction es with
  | nil =>
      intro acc hacc
      simp [fitCount, recSum]
      exact hacc
  | cons e rest ih =>
      intro acc hacc
      obtain ⟨ino, nm, dt⟩ := e
      by_cases hfit : acc + reclenOf nm.length > count
      · rw [show fitCount count ((ino, nm, dt) :: rest) acc = 0 by
          conv_lhs => rw [fitCount]
          simp only [if_pos hfit]]
        simp only [List.take_zero, recSum]
        omega
      · rw [show fitCount count ((ino, nm, dt) :: rest) acc =
            1 + fitCount count rest (acc + reclenOf nm.length) by
          conv_lhs => rw [fitCount]
          simp only [if_neg hfit]]
        rw [show 1 + fitCount count rest (acc + reclenOf nm.length) =
          fitCount count rest (acc + reclenOf nm.length) + 1 by omega]
        rw [List.take_succ_cons]
        simp only [recSum]
        have := ih (acc + reclenOf nm.length) (by omega)
        omega

theorem fitCount_max (count : Nat) :
    ∀ (es : List (Nat × List Nat × Nat)) (acc : Nat),
      fitCount count es acc < es.length →
      acc + recSum (es.take (fitCount count es acc + 1)) > count := by
  intro es
  induction es with
  | nil =>
      intro acc h
      simp [fitCount] at h
  | cons e rest ih =>
      intro acc h
      obtain ⟨ino, nm, dt⟩ := e
      by_cases hfit : acc + reclenOf nm.length > count
      · rw [show fitCount count ((ino, nm, dt) :: rest) acc = 0 by
          conv_lhs => rw [fitCount]
          simp only [if_pos hfit]]
        rw [show (0 + 1 : Nat) = 0 + 1 from rfl, List.take_succ_cons]
        simp only [List.take_zero, recSum]
        omega
      · have heq : fitCount count ((ino, nm, dt) :: rest) acc =
            1 + fitCount count rest (acc + reclenOf nm.length) := by
          conv_lhs => rw [fitCount]
          simp only [if_neg hfit]
        rw [heq] at h ⊢
        rw [show 1 + fitCount count rest (acc + reclenOf nm.length) + 1 =
          (fitCount count rest (acc + reclenOf nm.length) + 1) + 1 by
            omega]
        rw [List.take_succ_cons]
        simp only [recSum]
        have hlt : fitCount count rest (acc + reclenOf nm.length) <
            rest.length := by
          simp only [List.length_cons] at h
          omega
        have := ih (acc + reclenOf nm.length) hlt
        omega

end Getdents

namespace Getdents

theorem encRec_name (ino : Nat) (off : Int) (nm : List Nat) (dt : Nat) :
    ((encRec (ino, nm, dt) off).drop 19).take (nm.length + 1) =
      nm ++ [0] := by
  have hhead : encRec (ino, nm, dt) off =
      (le64 ino ++ le64i off ++ le16 (reclenOf nm.length) ++ [dt]) ++
        (nm ++ ([0] ++
          List.replicate (reclenOf nm.length - (20 + nm.length)) 0)) := by
    unfold encRec
    simp [List.append_assoc]
  rw [hhead]
  rw [List.drop_left'
    (by simp [le64_length, le64i_length, le16_length])]
  rw [List.take_append]
  simp

/-- C6: on a virtual directory fd with a fresh handle, `getdents64`
produces `.` then `..` (both typed as directories) followed by the
child entries sorted by name; the formatted buffer is the
concatenation of the per-entry records for exactly the longest prefix
of entries whose cumulative 8-byte-aligned record lengths fit in the
guest buffer size, each record carrying the null-terminated name after
its 19-byte header and consecutive `d_off` values starting at 1; the
guest return value is the byte count of the produced buffer; and a
second call on the same handle returns 0 bytes. -/
theorem C6_getdents_format (d : SqDir) (count count₂ ino dt : Nat)
    (nm : List Nat) (off : Int) (hd : d.dirPos = 0) :
    (d.getdents).1 =
      (d.ino, [46], DT_DIR) :: (d.ino, [46, 46], DT_DIR) ::
        (List.insertionSort (fun a b => nameLe a.name b.name)
          d.rows).map (fun r => (r.ino, r.name, dtypeOf r.mode)) ∧
    handle_getdents64_virtual d count =
      (((dentsJoin ((d.getdents).1.take
          (fitCount count (d.getdents).1 0)) 1).length : Int),
        dentsJoin ((d.getdents).1.take
          (fitCount count (d.getdents).1 0)) 1,
        { d with dirPos := 1 }) ∧
    (dentLoop count (d.getdents).1 ([], 1)).2 =
      1 + (fitCount count (d.getdents).1 0 : Int) ∧
    recSum ((d.getdents).1.take (fitCount count (d.getdents).1 0)) ≤
      count ∧
    (fitCount count (d.getdents).1 0 < (d.getdents).1.length →
      recSum ((d.getdents).1.take
        (fitCount count (d.getdents).1 0 + 1)) > count) ∧
    (encRec (ino, nm, dt) off).length = reclenOf nm.length ∧
    reclenOf nm.length % 8 = 0 ∧
    ((encRec (ino, nm, dt) off).drop 19).take (nm.length + 1) =
      nm ++ [0] ∧
    handle_getdents64_virtual { d with dirPos := 1 } count₂ =
      (0, [], { d with dirPos := 1 }) := by
  have hfirst : d.getdents =
      ((d.ino, [46], DT_DIR) :: (d.ino, [46, 46], DT_DIR) ::
        (List.insertionSort (fun a b => nameLe a.name b.name)
          d.rows).map (fun r => (r.ino, r.name, dtypeOf r.mode)),
       { d with dirPos := 1 }) := by
    unfold SqDir.getdents
    rw [if_neg (by omega)]
  have hspec := dentLoop_spec count (d.getdents).1 [] 1 (by simp)
  simp only [List.length_nil] at hspec
  refine ⟨by rw [hfirst], ?_, ?_, ?_, ?_,
    encRec_length ino off nm dt, reclenOf_mod8 nm.length,
    encRec_name ino off nm dt, ?_⟩
  · unfold handle_getdents64_virtual
    simp only
    rw [hspec]
    simp only [List.nil_append]
    rw [show (d.getdents).2 = { d with dirPos := 1 } by rw [hfirst]]
  · rw [hspec]
  · have := fitCount_sum count (d.getdents).1 0 (Nat.zero_le count)
    omega
  · intro hlt
    have := fitCount_max count (d.getdents).1 0 hlt
    omega
  · unfold handle_getdents64_virtual SqDir.getdents
    rw [if_pos (by simp)]
    simp [dentLoop]

end Getdents

namespace Getdents

theorem C6_witness :
    ((⟨7, [⟨9, [120], 33188⟩, ⟨8, [97], 16877⟩], 0⟩ : SqDir).getdents).1 =
      (7, [46], DT_DIR) :: (7, [46, 46], DT_DIR) ::
        (List.insertionSort (fun a b => nameLe a.name b.name)
          [(⟨9, [120], 33188⟩ : DirRow), ⟨8, [97], 16877⟩]).map
          (fun r => (r.ino, r.name, dtypeOf r.mode)) ∧
    handle_getdents64_virtual
        (⟨7, [⟨9, [120], 33188⟩, ⟨8, [97], 16877⟩], 1⟩ : SqDir) 50 =
      (0, [], (⟨7, [⟨9, [120], 33188⟩, ⟨8, [97], 16877⟩], 1⟩ : SqDir)) :=
  ⟨(C6_getdents_format ⟨7, [⟨9, [120], 33188⟩, ⟨8, [97], 16877⟩], 0⟩
      100 50 1 8 [97] 2 rfl).1,
   (C6_getdents_format ⟨7, [⟨9, [120], 33188⟩, ⟨8, [97], 16877⟩], 0⟩
      100 50 1 8 [97] 2 rfl).2.2.2.2.2.2.2.2⟩

end Getdents

namespace SdkFs

theorem statLoop_succ (fs : Fs) (fuel : Nat) (cur : List String) :
    statLoop fs (fuel + 1) cur =
      match resolvePath fs cur with
      | none => Except.ok none
      | some ino =>
          match inodeGet fs ino with
          | none => Except.ok none
          | some row =>
              if row.mode.land Getdents.S_IFMT = Getdents.S_IFLNK then
                match readlink fs cur with
                | Except.error e => Except.error e
                | Except.ok none => Except.error "Symlink has no target"
                | Except.ok (some t) =>
                    statLoop fs fuel
                      (normalize
                        (if t.abs then t.comps else cur.dropLast ++ t.comps))
              else Except.ok (some (buildStats fs ino row)) := rfl

theorem readlink_of_symlink {fs : Fs} {p : List String} {i : Int}
    {rowi : InodeRow} {t : SymTarget}
    (hres : resolvePath fs p = some i)
    (hrowi : inodeGet fs i = some rowi)
    (hlnk : rowi.mode.land Getdents.S_IFMT = Getdents.S_IFLNK)
    (hsym : (fs.symlinks.find? (fun s => s.1 = i)).map (fun s => s.2) =
      some t) :
    readlink fs p = Except.ok (some t) := by
  unfold readlink
  simp only [hres, hrowi]
  rw [if_neg (by simp [hlnk])]
  simp only [hsym]

theorem statLoop_cycle {fs : Fs} {p : List String} {i : Int}
    {rowi : InodeRow} {t : SymTarget}
    (hres : resolvePath fs p = some i)
    (hrowi : inodeGet fs i = some rowi)
    (hlnk : rowi.mode.land Getdents.S_IFMT = Getdents.S_IFLNK)
    (hsym : (fs.symlinks.find? (fun s => s.1 = i)).map (fun s => s.2) =
      some t)
    (hcyc : normalize (if t.abs then t.comps else p.dropLast ++ t.comps) =
      p) :
    ∀ fuel, statLoop fs fuel p =
      Except.error "Too many levels of symbolic links" := by
  intro fuel
  induction fuel with
  | zero => rfl
  | succ n ih =>
      rw [statLoop_succ]
      simp only [hres, hrowi, if_pos hlnk,
        readlink_of_symlink hres hrowi hlnk hsym, hcyc]
      exact ih

end SdkFs

namespace SqliteVfsM

/-- C7 (counterexample): the mount-serving `SqliteVfs::stat` does not
follow symlinks at all.  In a store whose dentry `a` names a
symlink-typed inode (a symlink that — per the `fs_symlink` row the real
database would hold — points back to `/agent/a`, a cycle), `stat` on
`/agent/a` succeeds and returns the symlink inode's own metadata
(mode `0o120777`), instead of failing with "too many levels" as the
claim asserts for a cycle. -/
theorem C7_counterexample :
    stat
        ⟨[(1, ⟨16877, 0, 0, 0, 0, 0, 0⟩), (2, ⟨41471, 0, 0, 5, 0, 0, 0⟩)],
          [⟨"a", 1, 2⟩]⟩
        ["agent"] ["agent", "a"] =
      Except.ok ⟨2, 1, 41471, 0, 0, 5, 4096, 1, 0, 0, 0⟩ ∧
    (41471 : Nat).land Getdents.S_IFMT = Getdents.S_IFLNK := by
  refine ⟨rfl, by decide⟩

end SqliteVfsM

namespace SdkFs

/-- C7 (amended): it is the PosixFs SDK filesystem
(`src/sdk/rust/src/filesystem.rs`) whose `stat` follows symbolic links
— bounded by 40 iterations — failing with "Too many levels of symbolic
links" when a symlink cycle is encountered, and whose `lstat` does not
follow; the mount-serving `SqliteVfs::stat`
(`src/agentfs/src/vfs/sqlite.rs`) does not follow symlinks at all:
it returns the stats of whatever inode the dentry walk reaches, even a
symlink-typed one. -/
theorem C7_symlink_follow (fsa fsb : Fs) (p pb : List String)
    (i ib j : Int) (rowi rowib rowj : InodeRow) (t tb : SymTarget)
    (q : List String) (db : SqliteVfsM.Db) (mount pd : List String)
    (ind : Int) (rd : SqliteVfsM.InodeRow)
    (hp : normalize p = p)
    (hres : resolvePath fsa p = some i)
    (hrowi : inodeGet fsa i = some rowi)
    (hlnk : rowi.mode.land Getdents.S_IFMT = Getdents.S_IFLNK)
    (hsym : (fsa.symlinks.find? (fun s => s.1 = i)).map (fun s => s.2) =
      some t)
    (hq : normalize (if t.abs then t.comps else p.dropLast ++ t.comps) = q)
    (hresq : resolvePath fsa q = some j)
    (hrowj : inodeGet fsa j = some rowj)
    (hnl : ¬rowj.mode.land Getdents.S_IFMT = Getdents.S_IFLNK)
    (hpb : normalize pb = pb)
    (hresb : resolvePath fsb pb = some ib)
    (hrowib : inodeGet fsb ib = some rowib)
    (hlnkb : rowib.mode.land Getdents.S_IFMT = Getdents.S_IFLNK)
    (hsymb : (fsb.symlinks.find? (fun s => s.1 = ib)).map (fun s => s.2) =
      some tb)
    (hcycb : normalize
      (if tb.abs then tb.comps else pb.dropLast ++ tb.comps) = pb)
    (hresd : SqliteVfsM.resolve_path db mount pd = Except.ok ind)
    (hrowd : (db.inodes.find? (fun r => r.1 = ind)).map (fun r => r.2) =
      some rd) :
    stat fsa p = Except.ok (some (buildStats fsa j rowj)) ∧
    stat fsb pb = Except.error "Too many levels of symbolic links" ∧
    lstat fsb pb = Except.ok (some (buildStats fsb ib rowib)) ∧
    SqliteVfsM.stat db mount pd =
      Except.ok
        { st_ino := ind, st_nlink := 1, st_mode := rd.mode
          st_uid := rd.uid, st_gid := rd.gid, st_size := rd.size
          st_blksize := 4096
          st_blocks := Int.tdiv (rd.size + 511) 512
          st_atime := rd.atime, st_mtime := rd.mtime
          st_ctime := rd.ctime } := by
  refine ⟨?_, ?_, ?_, ?_⟩
  · unfold stat
    rw [hp]
    rw [show (40 : Nat) = 39 + 1 from rfl, statLoop_succ]
    simp only [hres, hrowi, if_pos hlnk,
      readlink_of_symlink hres hrowi hlnk hsym, hq]
    rw [show (39 : Nat) = 38 + 1 from rfl, statLoop_succ]
    simp only [hresq, hrowj, if_neg hnl]
  · unfold stat
    rw [hpb]
    exact statLoop_cycle hresb hrowib hlnkb hsymb hcycb 40
  · unfold lstat
    rw [hpb]
    simp only [hresb, hrowib]
  · unfold SqliteVfsM.stat
    simp only [hresd, hrowd]

end SdkFs

namespace SdkFs

theorem C7_witness :
    stat
        ⟨[ (1, ⟨16877, 0, 0, 0, 0, 0, 0⟩), (2, ⟨41471, 0, 0, 2, 0, 0, 0⟩)
         , (3, ⟨33188, 0, 0, 7, 0, 0, 0⟩)]
        , [⟨"a", 1, 2⟩, ⟨"c", 1, 3⟩]
        , [(2, ⟨true, ["c"]⟩)]⟩ ["a"] =
      Except.ok (some (buildStats
        ⟨[ (1, ⟨16877, 0, 0, 0, 0, 0, 0⟩), (2, ⟨41471, 0, 0, 2, 0, 0, 0⟩)
         , (3, ⟨33188, 0, 0, 7, 0, 0, 0⟩)]
        , [⟨"a", 1, 2⟩, ⟨"c", 1, 3⟩]
        , [(2, ⟨true, ["c"]⟩)]⟩ 3 ⟨33188, 0, 0, 7, 0, 0, 0⟩)) ∧
    stat
        ⟨[ (1, ⟨16877, 0, 0, 0, 0, 0, 0⟩), (2, ⟨41471, 0, 0, 2, 0, 0, 0⟩)]
        , [⟨"a", 1, 2⟩]
        , [(2, ⟨true, ["a"]⟩)]⟩ ["a"] =
      Except.error "Too many levels of symbolic links" ∧
    lstat
        ⟨[ (1, ⟨16877, 0, 0, 0, 0, 0, 0⟩), (2, ⟨41471, 0, 0, 2, 0, 0, 0⟩)]
        , [⟨"a", 1, 2⟩]
        , [(2, ⟨true, ["a"]⟩)]⟩ ["a"] =
      Except.ok (some (buildStats
        ⟨[ (1, ⟨16877, 0, 0, 0, 0, 0, 0⟩), (2, ⟨41471, 0, 0, 2, 0, 0, 0⟩)]
        , [⟨"a", 1, 2⟩]
        , [(2, ⟨true, ["a"]⟩)]⟩ 2 ⟨41471, 0, 0, 2, 0, 0, 0⟩)) ∧
    SqliteVfsM.stat
        ⟨[(1, ⟨16877, 0, 0, 0, 0, 0, 0⟩), (2, ⟨41471, 0, 0, 5, 0, 0, 0⟩)],
          [⟨"a", 1, 2⟩]⟩ ["agent"] ["agent", "a"] =
      Except.ok
        { st_ino := 2, st_nlink := 1, st_mode := 41471
          st_uid := 0, st_gid := 0, st_size := 5
          st_blksize := 4096
          st_blocks := Int.tdiv ((5 : Int) + 511) 512
          st_atime := 0, st_mtime := 0, st_ctime := 0 } :=
  C7_symlink_follow
    ⟨[ (1, ⟨16877, 0, 0, 0, 0, 0, 0⟩), (2, ⟨41471, 0, 0, 2, 0, 0, 0⟩)
     , (3, ⟨33188, 0, 0, 7, 0, 0, 0⟩)]
    , [⟨"a", 1, 2⟩, ⟨"c", 1, 3⟩]
    , [(2, ⟨true, ["c"]⟩)]⟩
    ⟨[ (1, ⟨16877, 0, 0, 0, 0, 0, 0⟩), (2, ⟨41471, 0, 0, 2, 0, 0, 0⟩)]
    , [⟨"a", 1, 2⟩]
    , [(2, ⟨true, ["a"]⟩)]⟩
    ["a"] ["a"] 2 2 3
    ⟨41471, 0, 0, 2, 0, 0, 0⟩ ⟨41471, 0, 0, 2, 0, 0, 0⟩
    ⟨33188, 0, 0, 7, 0, 0, 0⟩
    ⟨true, ["c"]⟩ ⟨true, ["a"]⟩ ["c"]
    ⟨[(1, ⟨16877, 0, 0, 0, 0, 0, 0⟩), (2, ⟨41471, 0, 0, 5, 0, 0, 0⟩)],
      [⟨"a", 1, 2⟩]⟩
    ["agent"] ["agent", "a"] 2 ⟨41471, 0, 0, 5, 0, 0, 0⟩
    (by decide) rfl rfl (by decide) rfl (by decide) rfl rfl (by decide)
    (by decide) rfl rfl (by decide) rfl (by decide) rfl rfl

end SdkFs
